import Mathlib

/-!
Verification development for the `au` hierarchical item store
(`src/au/src/item.rs`, `src/libs/au/src/decode.rs`).

The Rust code stores items in an Automerge CRDT document whose relevant
surface is: a root map, nested map objects, collaborative text objects and
scalar values.  We embed that surface shallowly: map objects become
association lists over `String`, text objects carry their current content as
a byte sequence, and the typed decode helpers, the mutation engine
(`with_item` / `without_item` / `with_updated_item`), the text diff engine
(`common_prefix` / `common_suffix`) and full reconstruction
(`decode_project`) are translated function by function from the source.

Machine integers: Rust `i64`/`u64`/`i128` values are modelled as `Int` with
explicit wrap-arounds (`% 2^64`) at the two places the source casts
(`as i64` when encoding a timestamp, `to_u64` when decoding one).
`OffsetDateTime` of the `time` crate is modelled as its
`unix_timestamp_nanos` value, an `Int` confined to the crate's representable
range when built through the checked constructor.
-/

namespace Au

/-- Byte strings (`&[u8]`, `Vec<u8>`, and the UTF-8 bytes of document text). -/
abbrev Bytes := List Nat

/-! ### Association-list maps

Both the Automerge map objects and the in-memory `HashMap` index are
key-value maps with overwrite-on-put semantics; we model both as association
lists queried only through `alGet`, so entry order is irrelevant. -/

/-- Lookup in an association list (models `HashMap::get` / Automerge map `get`). -/
def alGet {α : Type} : List (String × α) → String → Option α
  | [], _ => none
  | (k', v) :: rest, k => if k' = k then some v else alGet rest k

/-- Overwrite-or-append (models `HashMap::insert` / Automerge map `put`). -/
def alPut {α : Type} : List (String × α) → String → α → List (String × α)
  | [], k, v => [(k, v)]
  | (k', v') :: rest, k, v =>
    if k' = k then (k, v) :: rest else (k', v') :: alPut rest k v

/-- Key removal (models `HashMap::remove` / Automerge map `delete`). -/
def alDel {α : Type} (l : List (String × α)) (k : String) : List (String × α) :=
  l.filter (fun kv => kv.1 ≠ k)

/-! ### The Automerge value surface -/

/-- Automerge `ScalarValue` variants reachable in this code base.  The `f64`
and `unknown` variants are omitted: no store or decode path of the embedded
code produces or distinguishes them beyond "not the expected shape", which
`counter`/`null` already exercise. -/
inductive AmScalar : Type where
  | str (s : String)
  | int (n : Int)
  | uint (n : Nat)
  | timestamp (n : Int)
  | boolean (b : Bool)
  | bytes (bs : Bytes)
  | counter (n : Int)
  | null
deriving DecidableEq

/-- An Automerge value: a scalar, a collaborative text object (carrying its
current content as UTF-8 bytes), a list object, or a map object. -/
inductive AmValue : Type where
  | scalar (v : AmScalar)
  | text (t : Bytes)
  | listObj
  | mapObj (entries : List (String × AmValue))

/-- A map object's entries; the document root is one of these. -/
abbrev AmMap := List (String × AmValue)

/-! ### Errors (`src/au/src/error.rs`)

`utf8Error` stands for the `std::str::Utf8Error` that `with_item` /
`with_updated_item` propagate through `?` when text content is not valid
UTF-8 (it is boxed into the same `Box<dyn Error>` result).  `nonTermination`
is a model artifact: the parent walk in `with_updated_item` is an unbounded
loop in the source and does not return at all on an index whose parent graph
already contains a cycle not passing through the updated item; the model
returns this designated value after `children.length + 1` steps instead.
`panicked` is likewise a model artifact: it marks the runs on which the
source program *panics* (aborts without returning any value or state) —
concretely the `&str` byte-index slices of the `Content` splice path, which
panic when a byte-computed boundary is not a UTF-8 char boundary; the model
returns this designated value there so the functions stay total.  Statements
about error *returns* are vacuous for real panics and non-termination. -/
inductive AuError : Type where
  | noSuchKey (k : String)
  | incorrectType (k expected : String)
  | invalidField (k reason : String)
  | invalidOperation (k reason : String)
  | nested (k : String) (e : AuError)
  | utf8Error
  | nonTermination
  | panicked
deriving DecidableEq

/-- Decidable equality of results, for concrete evaluation. -/
instance {ε α : Type} [DecidableEq ε] [DecidableEq α] : DecidableEq (Except ε α) :=
  fun x y =>
  match x, y with
  | .ok a, .ok b =>
    if h : a = b then isTrue (by rw [h]) else isFalse (fun hh => h (Except.ok.inj hh))
  | .error a, .error b =>
    if h : a = b then isTrue (by rw [h]) else isFalse (fun hh => h (Except.error.inj hh))
  | .ok _, .error _ => isFalse (fun hh => Except.noConfusion hh)
  | .error _, .ok _ => isFalse (fun hh => Except.noConfusion hh)

/-! ### The `time` crate model

`OffsetDateTime` is represented by its `unix_timestamp_nanos()` value.  With
the crate's default features the representable range is
`-9999-01-01T00:00:00Z ..= 9999-12-31T23:59:59.999999999Z`. -/

/-- `OffsetDateTime::MIN.unix_timestamp_nanos()` (`-9999-01-01T00:00:00Z`). -/
def minTimestampNanos : Int := -377705116800000000000

/-- `OffsetDateTime::MAX.unix_timestamp_nanos()` (`9999-12-31T23:59:59.999999999Z`). -/
def maxTimestampNanos : Int := 253402300799999999999

/-- `OffsetDateTime::from_unix_timestamp_nanos`: succeeds exactly on the
representable range, otherwise returns a component-range error. -/
def from_unix_timestamp_nanos (ns : Int) : Option Int :=
  if minTimestampNanos ≤ ns ∧ ns ≤ maxTimestampNanos then some ns else none

/-- Wrap an integer into `i64` (the `as i64` cast in `with_item`). -/
def wrapI64 (n : Int) : Int := (n + 2 ^ 63) % 2 ^ 64 - 2 ^ 63

/-- Wrap an integer into `u64` (the `as u64` cast inside `ScalarValue::to_u64`). -/
def wrapU64 (n : Int) : Int := n % 2 ^ 64

/-! ### `ScalarValue` accessors used by the decode helpers -/

def AmScalar.is_str : AmScalar → Bool
  | .str _ => true
  | _ => false

def AmScalar.to_str : AmScalar → Option String
  | .str s => some s
  | _ => none

def AmScalar.is_boolean : AmScalar → Bool
  | .boolean _ => true
  | _ => false

def AmScalar.to_bool : AmScalar → Option Bool
  | .boolean b => some b
  | _ => none

/-- `ScalarValue::is_int` matches only the `Int` variant (not `Uint`). -/
def AmScalar.is_int : AmScalar → Bool
  | .int _ => true
  | _ => false

def AmScalar.to_i64 : AmScalar → Option Int
  | .int n => some n
  | .uint n => some (wrapI64 n)
  | .timestamp n => some n
  | .counter n => some n
  | _ => none

def AmScalar.is_timestamp : AmScalar → Bool
  | .timestamp _ => true
  | _ => false

/-- `ScalarValue::to_u64`; signed variants are cast with `as u64` (wrapping). -/
def AmScalar.to_u64 : AmScalar → Option Int
  | .int n => some (wrapU64 n)
  | .uint n => some n
  | .timestamp n => some (wrapU64 n)
  | .counter n => some (wrapU64 n)
  | _ => none

def AmScalar.to_bytes : AmScalar → Option Bytes
  | .bytes bs => some bs
  | _ => none

/-! ### Value codec (`src/libs/au/src/decode.rs`)

Each getter reads `(node, key)`; `source.get` is total in the model (its
`Err` branch corresponds to automerge-internal failures with no analogue
here). -/

def decode_string (node : AmMap) (k : String) : Except AuError (Option String) :=
  match alGet node k with
  | some (.scalar v) =>
    if !v.is_str then .error (.incorrectType k "string")
    else .ok v.to_str
  | _ => .ok none

def decode_bool (node : AmMap) (k : String) : Except AuError (Option Bool) :=
  match alGet node k with
  | some (.scalar v) =>
    if v.is_boolean then .ok v.to_bool
    else .error (.incorrectType k "bool")
  | some _ => .error (.incorrectType k "bool")
  | none => .ok none

def decode_i64 (node : AmMap) (k : String) : Except AuError (Option Int) :=
  match alGet node k with
  | some (.scalar v) =>
    if !v.is_int then .error (.incorrectType k "i64")
    else .ok v.to_i64
  | _ => .ok none

/-- `decode_timestamp`: after the `is_timestamp` guard the source calls
`v.to_u64().unwrap()`; the guard guarantees the option is populated, so the
`getD 0` default is unreachable and stands for the impossible panic. -/
def decode_timestamp (node : AmMap) (k : String) : Except AuError (Option Int) :=
  match alGet node k with
  | some (.scalar v) =>
    if !v.is_timestamp then .error (.incorrectType k "timestamp")
    else
      match from_unix_timestamp_nanos ((v.to_u64.getD 0) * 1000000) with
      | some t => .ok (some t)
      | none => .error (.incorrectType k "timestamp")
  | _ => .ok none

/-- `decode_content`: a collaborative text node resolves to its UTF-8 bytes
(`source.text` is total on a text object in the model), a scalar resolves
through `to_bytes`, anything else falls into the wildcard arm. -/
def decode_content (node : AmMap) (k : String) : Except AuError (Option Bytes) :=
  match alGet node k with
  | some (.text t) => .ok (some t)
  | some (.scalar v) =>
    match v.to_bytes with
    | some b => .ok (some b)
    | none => .error (.incorrectType k "text")
  | _ => .ok none

/-! ### Text diff engine (`src/au/src/item.rs`, `common_prefix` / `common_suffix`)

The source compares 128-byte blocks first (`chunks_exact(128)` /
`rchunks_exact(128)`), counts fully matching leading (resp. trailing)
blocks, then finishes with a byte-by-byte scan over the remainders.  The
byte-by-byte phase (`iter::zip(..).take_while(..).count()`) is exactly the
naive scan `commonPrefixNaive`. -/

/-- Naive byte-by-byte scan: length of the longest shared leading run. -/
def commonPrefixNaive : Bytes → Bytes → Nat
  | a :: as, b :: bs => if a = b then commonPrefixNaive as bs + 1 else 0
  | _, _ => 0

/-- Naive length of the longest shared trailing run. -/
def commonSuffixNaive (a b : Bytes) : Nat :=
  commonPrefixNaive a.reverse b.reverse

/-- Number of leading 128-byte blocks on which `a` and `b` fully agree
(`iter::zip(a.chunks_exact(128), b.chunks_exact(128)).take_while(..).count()`). -/
def chunkPrefixBlocks (a b : Bytes) : Nat :=
  if h : 128 ≤ a.length ∧ 128 ≤ b.length ∧ a.take 128 = b.take 128 then
    chunkPrefixBlocks (a.drop 128) (b.drop 128) + 1
  else 0
termination_by a.length
decreasing_by simp only [List.length_drop]; omega

/-- `common_prefix` with the block-then-byte strategy of the source. -/
def common_prefix (a b : Bytes) : Nat :=
  let offset := 128 * chunkPrefixBlocks a b
  offset + commonPrefixNaive (a.drop offset) (b.drop offset)

/-- Number of trailing 128-byte blocks on which `a` and `b` fully agree
(the `rchunks_exact(128)` phase). -/
def chunkSuffixBlocks (a b : Bytes) : Nat :=
  if h : 128 ≤ a.length ∧ 128 ≤ b.length ∧
      a.drop (a.length - 128) = b.drop (b.length - 128) then
    chunkSuffixBlocks (a.take (a.length - 128)) (b.take (b.length - 128)) + 1
  else 0
termination_by a.length
decreasing_by simp only [List.length_take]; omega

/-- `common_suffix` with the block-then-byte strategy of the source; the
byte phase zips the reversed remainders. -/
def common_suffix (a b : Bytes) : Nat :=
  let offset := 128 * chunkSuffixBlocks a b
  offset + commonPrefixNaive
    (a.take (a.length - offset)).reverse (b.take (b.length - offset)).reverse

/-! ### Text mutation primitives of the Automerge engine -/

/-- `splice_text(node, pos, del, ins)` on byte positions: delete `del` bytes
at `pos`, insert `ins` there. -/
def splice_text (t : Bytes) (pos del : Nat) (ins : Bytes) : Bytes :=
  t.take pos ++ ins ++ t.drop (pos + del)

/-- `update_text(node, new)`: full replacement of the text content. -/
def update_text (_t : Bytes) (newC : Bytes) : Bytes := newC

/-- Rust `str::is_char_boundary` over the UTF-8 bytes: position 0, the end
of the string, or a byte that is not a continuation byte
(`(b as i8) >= -0x40`, i.e. `b < 0x80 ∨ 0xC0 ≤ b`); positions past the end
are not boundaries (indexing there panics too). -/
def is_char_boundary (l : Bytes) (i : Nat) : Bool :=
  if i = 0 then true
  else
    match l[i]? with
    | none => decide (i = l.length)
    | some b => decide (b < 0x80 ∨ 0xC0 ≤ b)

/-- The text-shaped branch of `ItemUpdate::Content` in `with_updated_item`:
compute the shared prefix and (on the remainders) shared suffix, splice the
differing middle region if either is positive, otherwise fall back to a full
replacement.  The source slices `&str` values at *byte* indices computed by
the byte-wise diff (`new_content_str[p..]`, `old_content_str[p..]`, and
`&new_content_str[p..new_end]` in item.rs:264-277); Rust `&str` range
indexing panics when such an index is not a UTF-8 char boundary, so the
model returns `none` exactly where the source would panic. -/
def contentTextUpdate (oldC newC : Bytes) : Option Bytes :=
  let cpl := common_prefix newC oldC
  if is_char_boundary newC cpl ∧ is_char_boundary oldC cpl then
    let csl := common_suffix (newC.drop cpl) (oldC.drop cpl)
    if 0 < cpl ∨ 0 < csl then
      if is_char_boundary newC (newC.length - csl) then
        some (splice_text oldC cpl (oldC.length - cpl - csl)
          ((newC.take (newC.length - csl)).drop cpl))
      else none
    else
      some (update_text oldC newC)
  else none

/-! ### Item model (`src/au/src/item.rs`) -/

/-- `str::starts_with` for the `"text/"` content-type discriminator.
Stated over the character sequence; for the ASCII pattern used by the source
this coincides with Rust's byte-wise check. -/
def strStartsWith (s pre : String) : Bool :=
  decide (s.data.take pre.data.length = pre.data)

/-- A UTF-8 continuation byte (`0x80..=0xBF`). -/
def isUtf8Cont (b : Nat) : Bool := decide (0x80 ≤ b ∧ b ≤ 0xBF)

/-- Validity check of `std::str::from_utf8` over raw bytes (RFC 3629 table:
shortest-form encodings, surrogates excluded, max `U+10FFFF`). -/
def isValidUtf8 : Bytes → Bool
  | [] => true
  | b :: rest =>
    if b ≤ 0x7F then isValidUtf8 rest
    else
      match rest with
      | [] => false
      | c :: r =>
        if 0xC2 ≤ b ∧ b ≤ 0xDF then isUtf8Cont c && isValidUtf8 r
        else
          match r with
          | [] => false
          | d :: r2 =>
            if b = 0xE0 then
              decide (0xA0 ≤ c ∧ c ≤ 0xBF) && isUtf8Cont d && isValidUtf8 r2
            else if (0xE1 ≤ b ∧ b ≤ 0xEC) ∨ b = 0xEE ∨ b = 0xEF then
              isUtf8Cont c && isUtf8Cont d && isValidUtf8 r2
            else if b = 0xED then
              decide (0x80 ≤ c ∧ c ≤ 0x9F) && isUtf8Cont d && isValidUtf8 r2
            else
              match r2 with
              | [] => false
              | e :: r3 =>
                if b = 0xF0 then
                  decide (0x90 ≤ c ∧ c ≤ 0xBF) && isUtf8Cont d && isUtf8Cont e &&
                    isValidUtf8 r3
                else if 0xF1 ≤ b ∧ b ≤ 0xF3 then
                  isUtf8Cont c && isUtf8Cont d && isUtf8Cont e && isValidUtf8 r3
                else if b = 0xF4 then
                  decide (0x80 ≤ c ∧ c ≤ 0x8F) && isUtf8Cont d && isUtf8Cont e &&
                    isValidUtf8 r3
                else false

/-- The domain entity.  `atNs` is the source's `at: OffsetDateTime` as
nanoseconds since the epoch; `cls` is the source's `class` field (a Lean
keyword). -/
structure Item : Type where
  id : String
  atNs : Int
  cls : Option String
  content_type : String
  content : Bytes
  rank : Int
  parent : Option String
deriving DecidableEq

/-- `Item::default()`. -/
def Item.default : Item :=
  { id := "", atNs := 0, cls := none, content_type := "text/plain",
    content := [], rank := 0, parent := none }

/-- The update vocabulary of `with_updated_item`. -/
inductive ItemUpdate : Type where
  | Parent (p : Option String)
  | Rank (r : Int)
  | Class (c : Option String)
  | Content (content_type : String) (content : Bytes)

/-- The in-memory index: `HashMap<Box<str>, Rc<Item>>`. -/
structure Project : Type where
  children : List (String × Item)
deriving DecidableEq

/-- The `at` encoding of `with_item`:
`(item.at.unix_timestamp_nanos() / 1_000_000) as i64` — truncating division
by `10^6` followed by a wrapping cast to `i64`. -/
def encode_at (t : Int) : Int := wrapI64 (Int.tdiv t 1000000)

/-- `find_items_node`: the root key `"items"` must hold a map object. -/
def find_items_node (doc : AmMap) : Except AuError AmMap :=
  match alGet doc "items" with
  | some (.mapObj entries) => .ok entries
  | some _ => .error (.incorrectType "items" "map")
  | none => .error (.noSuchKey "items")

/-- The `(parent, v.parent)` equality rule shared by `has_children` and
`list_children`. -/
def parentMatches (parent : Option String) (itemParent : Option String) : Bool :=
  match parent, itemParent with
  | some pa, some pb => pa = pb
  | none, none => true
  | _, _ => false

def has_children (p : Project) (parent : Option String) : Bool :=
  p.children.any (fun kv => parentMatches parent kv.2.parent)

def get_item (p : Project) (id : String) : Option Item := alGet p.children id

/-- The comparator passed to `sort_by` in `list_children`, including its
asymmetric `Equal` fallthrough. -/
def itemCmp (a b : Item) : Ordering :=
  if a.rank > b.rank ∨ (a.rank = b.rank ∧ a.atNs < b.atNs) then .lt
  else if a.rank > b.rank ∨ (a.rank = b.rank ∧ a.atNs > b.atNs) then .gt
  else .eq

/-- Rust's stable `sort_by` consumes the comparator only through
`compare(a, b) == Less`; this is that strict order. -/
def itemLt (a b : Item) : Bool := itemCmp a b == Ordering.lt

def insertSorted (x : Item) : List Item → List Item
  | [] => [x]
  | y :: ys => if itemLt x y then x :: y :: ys else y :: insertSorted x ys

/-- A sort agreeing with `slice::sort_by` under `itemLt`.  The `HashMap`
iteration order feeding the sort is arbitrary in the source, so only
order-insensitive consequences (membership and the adjacency ordering) are
claimed about the result. -/
def sortItems : List Item → List Item
  | [] => []
  | x :: xs => insertSorted x (sortItems xs)

def list_children (p : Project) (parent : Option String) : List Item :=
  sortItems ((p.children.filter (fun kv => parentMatches parent kv.2.parent)).map Prod.snd)

/-! ### Mutation engine -/

/-- Optional `parent` / `class` writes at the end of `with_item`. -/
def putParentClass (node : AmMap) (item : Item) : AmMap :=
  let node1 := match item.parent with
    | some pr => alPut node "parent" (.scalar (.str pr))
    | none => node
  match item.cls with
  | some c => alPut node1 "class" (.scalar (.str c))
  | none => node1

/-- The first three writes of `with_item` into the fresh item map:
`at` (millisecond timestamp), `content_type`, `rank`. -/
def baseItemNode (item : Item) : AmMap :=
  alPut (alPut (alPut [] "at" (.scalar (.timestamp (encode_at item.atNs))))
    "content_type" (.scalar (.str item.content_type)))
    "rank" (.scalar (.int item.rank))

/-- The write phase of `with_item` after validation, given the resolved
items node `items`: create the item map and put `at`, `content_type`,
`rank`; then the content — a text object for `text/*` content types (here
`from_utf8` can fail *after* those three writes) or a bytes scalar — then
the optional `parent` / `class` keys; finally insert the item into the
index. -/
def with_item_write (p : Project) (item : Item) (doc : AmMap) (items : AmMap) :
    Option AuError × Project × AmMap :=
  if strStartsWith item.content_type "text/" then
    if isValidUtf8 item.content then
      (none, ⟨alPut p.children item.id item⟩,
        alPut doc "items" (.mapObj (alPut items item.id (.mapObj
          (putParentClass (alPut (baseItemNode item) "content" (.text item.content))
            item)))))
    else
      -- `put_object(.., "content", Text)` has already created the empty
      -- text node when `from_utf8` fails inside `update_text`'s argument.
      (some .utf8Error, p,
        alPut doc "items" (.mapObj (alPut items item.id (.mapObj
          (alPut (baseItemNode item) "content" (.text []))))))
  else
    (none, ⟨alPut p.children item.id item⟩,
      alPut doc "items" (.mapObj (alPut items item.id (.mapObj
        (putParentClass (alPut (baseItemNode item) "content"
          (.scalar (.bytes item.content))) item)))))

/-- `Project::with_item`: validation (empty id, duplicate id, dangling
parent) strictly precedes any document write; the items node is then
located, a malshaped or missing one being replaced by a fresh empty map. -/
def with_item (p : Project) (item : Item) (doc : AmMap) :
    Option AuError × Project × AmMap :=
  if item.id = "" then (some (.invalidField "id" "empty"), p, doc)
  else if (alGet p.children item.id).isSome then
    (some (.invalidField "id" "duplicate key"), p, doc)
  else
    match item.parent with
    | some par =>
      if (alGet p.children par).isNone then
        (some (.invalidField "parent" "does not exist"), p, doc)
      else
        match find_items_node doc with
        | .ok items => with_item_write p item doc items
        | .error _ => with_item_write p item doc []
    | none =>
      match find_items_node doc with
      | .ok items => with_item_write p item doc items
      | .error _ => with_item_write p item doc []

/-- `Project::without_item`: missing id and delete-with-children are
rejected before any document write; on success the key is deleted from the
items node and from the index. -/
def without_item (p : Project) (id : String) (doc : AmMap) :
    Option AuError × Project × AmMap :=
  if (alGet p.children id).isNone then (some (.noSuchKey id), p, doc)
  else if has_children p (some id) then
    (some (.invalidOperation id "has children"), p, doc)
  else
    let items := match find_items_node doc with
      | .ok n => n
      | .error _ => []
    (none, ⟨alDel p.children id⟩, alPut doc "items" (.mapObj (alDel items id)))

/-- Outcome of the parent-chain walk in `ItemUpdate::Parent(Some(_))`. -/
inductive WalkResult : Type where
  | ok
  | noSuchKey (k : String)
  | cycle
  | fuelOut
deriving DecidableEq

/-- The cycle-detection loop: follow `parent` links from `cur` through the
index; a missing link fails with not-found, a link whose parent equals the
updated id fails as a cycle, reaching a root succeeds.  The source loop is
unbounded; `children.length + 1` steps are enough whenever the walk
terminates at all, and `fuelOut` marks the runs on which the source loops
forever. -/
def parentWalk (p : Project) (id : String) : String → Nat → WalkResult
  | _, 0 => .fuelOut
  | cur, n + 1 =>
    match alGet p.children cur with
    | none => .noSuchKey cur
    | some it =>
      match it.parent with
      | none => .ok
      | some pp => if pp = id then .cycle else parentWalk p id pp n

/-- The rest of the `Content` edit after the content-type write: skip when
the byte content is unchanged; otherwise, for text-shaped content types,
check UTF-8 validity (failing *after* the content-type write), then either
splice/replace the existing text node through `contentTextUpdate` or write
a fresh text node; for other content types write a bytes scalar.  `it1` and
`node1` carry the (possibly) already-updated content type. -/
def applyContentEdit (it1 : Item) (node1 : AmMap) (bs : Bytes) :
    Option AuError × Item × AmMap :=
  if it1.content = bs then (none, it1, node1)
  else
    if strStartsWith it1.content_type "text/" then
      if !isValidUtf8 bs then (some .utf8Error, { it1 with content := bs }, node1)
      else
        match alGet node1 "content" with
        | some (.text oldT) =>
          -- `contentTextUpdate` is `none` exactly where the source's
          -- `&str` byte-index slicing panics: the process aborts before
          -- `splice_text` runs, leaving the node untouched.
          match contentTextUpdate oldT bs with
          | some newT =>
            (none, { it1 with content := bs }, alPut node1 "content" (.text newT))
          | none => (some .panicked, { it1 with content := bs }, node1)
        | _ => (none, { it1 with content := bs }, alPut node1 "content" (.text bs))
    else
      (none, { it1 with content := bs },
        alPut node1 "content" (.scalar (.bytes bs)))

/-- One edit of `with_updated_item`'s loop, acting on the cloned item and
the item's document node; `p` is the index snapshot from before the call
(the source consults `self.children`, which is only replaced after all
edits succeed). -/
def applyEdit (p : Project) (id : String) (it : Item) (node : AmMap) :
    ItemUpdate → Option AuError × Item × AmMap
  | .Parent none =>
    match it.parent with
    | some _ => (none, { it with parent := none }, alDel node "parent")
    | none => (none, it, node)
  | .Parent (some np) =>
    match parentWalk p id np (p.children.length + 1) with
    | .ok => (none, { it with parent := some np },
        alPut node "parent" (.scalar (.str np)))
    | .noSuchKey k => (some (.noSuchKey k), it, node)
    | .cycle => (some (.invalidOperation np "has a cycle"), it, node)
    | .fuelOut => (some .nonTermination, it, node)
  | .Rank r => (none, { it with rank := r }, alPut node "rank" (.scalar (.int r)))
  | .Class none => (none, { it with cls := none }, alDel node "class")
  | .Class (some c) => (none, { it with cls := some c },
      alPut node "class" (.scalar (.str c)))
  | .Content ct bs =>
    if it.content_type ≠ ct then
      applyContentEdit { it with content_type := ct }
        (alPut node "content_type" (.scalar (.str ct))) bs
    else
      applyContentEdit it node bs

/-- The edit loop: apply edits in order, stopping at the first failure and
keeping the document writes made so far. -/
def applyEdits (p : Project) (id : String) :
    Item → AmMap → List ItemUpdate → Option AuError × Item × AmMap
  | it, node, [] => (none, it, node)
  | it, node, u :: us =>
    match applyEdit p id it node u with
    | (none, it', node') => applyEdits p id it' node' us
    | (some e, it', node') => (some e, it', node')

/-- The tail of `with_updated_item` once the target item and the items node
(`items`, inside the document state `doc1`) are resolved: resolve the
item's map node, run the edits, and only on full success install the new
snapshot into the index; the document keeps whatever the edits wrote either
way. -/
def with_updated_item_core (p : Project) (id : String) (updates : List ItemUpdate)
    (target : Item) (items : AmMap) (doc1 : AmMap) :
    Option AuError × Project × AmMap :=
  match alGet items id with
  | some (.mapObj node) =>
    match applyEdits p id target node updates with
    | (none, it', node') =>
      (none, ⟨alPut p.children id it'⟩,
        alPut doc1 "items" (.mapObj (alPut items id (.mapObj node'))))
    | (some e, _, node') =>
      (some e, p, alPut doc1 "items" (.mapObj (alPut items id (.mapObj node'))))
  | some _ => (some (.incorrectType id "map"), p, doc1)
  | none => (some (.noSuchKey id), p, doc1)

/-- `Project::with_updated_item`: resolve the target in the index, locate
the items node (creating a fresh empty one when absent or malshaped), and
continue with `with_updated_item_core`. -/
def with_updated_item (p : Project) (id : String) (updates : List ItemUpdate)
    (doc : AmMap) : Option AuError × Project × AmMap :=
  match alGet p.children id with
  | none => (some (.noSuchKey id), p, doc)
  | some target =>
    match find_items_node doc with
    | .ok items => with_updated_item_core p id updates target items doc
    | .error _ =>
      with_updated_item_core p id updates target [] (alPut doc "items" (.mapObj []))

/-! ### Reconstruction (`decode_project`) -/

/-- `decode_item_inner`: required `at` / `content` / `content_type`
(missing keys become not-found errors), optional `parent` / `class` /
`rank` (the latter defaulting to 0). -/
def decode_item_inner (node : AmMap) (k : String) : Except AuError (Option Item) := do
  let atMs ← decode_timestamp node "at"
  let atV ← match atMs with
    | some v => pure v
    | none => Except.error (.noSuchKey "at")
  let contentOpt ← decode_content node "content"
  let contentV ← match contentOpt with
    | some v => pure v
    | none => Except.error (.noSuchKey "content")
  let ctOpt ← decode_string node "content_type"
  let ctV ← match ctOpt with
    | some v => pure v
    | none => Except.error (.noSuchKey "content_type")
  let parentV ← decode_string node "parent"
  let clsV ← decode_string node "class"
  let rankOpt ← decode_i64 node "rank"
  pure (some { id := k, atNs := atV, cls := clsV, content_type := ctV,
               content := contentV, rank := rankOpt.getD 0, parent := parentV })

/-- `decode_item`: a missing key is no item, a non-map key is a type error,
and inner decode failures are wrapped with the item key. -/
def decode_item (items : AmMap) (k : String) : Except AuError (Option Item) :=
  match alGet items k with
  | some (.mapObj node) =>
    match decode_item_inner node k with
    | .ok v => .ok v
    | .error e => .error (.nested k e)
  | some _ => .error (.incorrectType k "map")
  | none => .ok none

/-- The key loop of `decode_project`.  Automerge enumerates map keys in
sorted order; the model iterates the entry list — the resulting index is
only ever observed through `alGet`, for which the order is irrelevant. -/
def decode_project_go (items : AmMap) :
    List String → List (String × Item) → Except AuError (List (String × Item))
  | [], acc => .ok acc
  | k :: ks, acc =>
    match decode_item items k with
    | .error e => .error (.nested "items" e)
    | .ok none => .error (.noSuchKey k)
    | .ok (some it) => decode_project_go items ks (alPut acc k it)

/-- `decode_project`: locate the items node, decode every key, all-or-nothing. -/
def decode_project (doc : AmMap) : Except AuError Project :=
  match find_items_node doc with
  | .error e => .error e
  | .ok items =>
    match decode_project_go items (items.map Prod.fst) [] with
    | .ok out => .ok ⟨out⟩
    | .error e => .error e

/-! ### Operation sequences (for the round-trip property) -/

/-- One public mutation. -/
inductive Op : Type where
  | insert (item : Item)
  | update (id : String) (updates : List ItemUpdate)
  | delete (id : String)

def runOp (p : Project) (doc : AmMap) : Op → Option AuError × Project × AmMap
  | .insert item => with_item p item doc
  | .update id updates => with_updated_item p id updates doc
  | .delete id => without_item p id doc

/-- Run a sequence of mutations, stopping at the first failure. -/
def runOps : List Op → Project → AmMap → Option AuError × Project × AmMap
  | [], p, doc => (none, p, doc)
  | op :: ops, p, doc =>
    match runOp p doc op with
    | (none, p', d') => runOps ops p' d'
    | (some e, p', d') => (some e, p', d')

/-! ### Observation helper and concrete fixtures -/

/-- Read one field of one item straight out of a document (root → `"items"`
→ `id` → `key`), for stating concrete document contents. -/
def docItemField (doc : AmMap) (id k : String) : Option AmValue :=
  match alGet doc "items" with
  | some (.mapObj items) =>
    match alGet items id with
    | some (.mapObj node) => alGet node k
    | _ => none
  | _ => none

/-- Fixture: a default-valued item named `item-a`. -/
def itemA : Item :=
  { id := "item-a", atNs := 0, cls := none, content_type := "text/plain",
    content := [], rank := 0, parent := none }

/-- The document node `with_item` writes for `itemA`. -/
def nodeA : AmMap :=
  [("at", .scalar (.timestamp 0)), ("content_type", .scalar (.str "text/plain")),
   ("rank", .scalar (.int 0)), ("content", .text [])]

/-- Fixture: the index holding exactly `itemA`. -/
def projA : Project := ⟨[("item-a", itemA)]⟩

/-- Fixture: `itemA`'s document node with text content `"é"`
(UTF-8 bytes `C3 A9`). -/
def nodeEAcute : AmMap :=
  [("at", .scalar (.timestamp 0)), ("content_type", .scalar (.str "text/plain")),
   ("rank", .scalar (.int 0)), ("content", .text [195, 169])]

/-- Fixture: the document holding exactly `itemA`'s node. -/
def docA : AmMap := [("items", .mapObj [("item-a", .mapObj nodeA)])]

/-! ### Sibling ordering (C6) -/

/-- The documented sibling order: rank descending, then timestamp
ascending.  `itemOrdered a b` says `a` may precede `b`. -/
def itemOrdered (a b : Item) : Prop :=
  b.rank ≤ a.rank ∧ (b.rank = a.rank → a.atNs ≤ b.atNs)

/-! ### Round trip (C1)

The document stores `at` truncated to milliseconds, so only items whose
timestamp is a whole non-negative number of milliseconds in the
representable range survive a round trip; `atAligned` captures that. -/

/-- `at` timestamps that the millisecond document encoding preserves. -/
def atAligned (t : Int) : Prop :=
  0 ≤ t ∧ t % 1000000 = 0 ∧ t ≤ maxTimestampNanos

/-- Alignment requirement on an operation: only inserts introduce new
timestamps (updates never touch `at`). -/
def opAligned : Op → Prop
  | .insert item => atAligned item.atNs
  | .update _ _ => True
  | .delete _ => True

/-- The document item node faithfully encodes the index item: required
scalar fields in place, content stored as a text object or a bytes scalar
(the shape may lag behind a changed content type), optional fields present
exactly when set. -/
def NodeEnc (node : AmMap) (it : Item) : Prop :=
  alGet node "at" = some (.scalar (.timestamp (encode_at it.atNs))) ∧
  alGet node "content_type" = some (.scalar (.str it.content_type)) ∧
  alGet node "rank" = some (.scalar (.int it.rank)) ∧
  (alGet node "content" = some (.text it.content) ∨
    alGet node "content" = some (.scalar (.bytes it.content))) ∧
  alGet node "parent" = it.parent.map (fun s => .scalar (.str s)) ∧
  alGet node "class" = it.cls.map (fun s => .scalar (.str s))

/-- The items node and the index agree key by key. -/
def ItemsRel (items : AmMap) (ch : List (String × Item)) : Prop :=
  ∀ k, (alGet items k = none ∧ alGet ch k = none) ∨
    (∃ node it, alGet items k = some (.mapObj node) ∧ alGet ch k = some it ∧
      it.id = k ∧ NodeEnc node it ∧ atAligned it.atNs)

/-- The mutation-engine invariant: the document holds an items map that
mirrors the index. -/
def Inv (doc : AmMap) (p : Project) : Prop :=
  ∃ items, alGet doc "items" = some (.mapObj items) ∧ ItemsRel items p.children

/-! ## Theorems -/

theorem alGet_alPut_self {α : Type} (l : List (String × α)) (k : String) (v : α) :
    alGet (alPut l k v) k = some v := by
  induction l with
  | nil => simp [alPut, alGet]
  | cons hd tl ih =>
    by_cases h : hd.1 = k <;> simp [alPut, alGet, h, ih]

theorem alGet_alPut_ne {α : Type} (l : List (String × α)) {k k' : String} (v : α)
    (h : k' ≠ k) : alGet (alPut l k v) k' = alGet l k' := by
  have h' : ¬k = k' := fun hh => h hh.symm
  induction l with
  | nil => simp [alPut, alGet, h']
  | cons hd tl ih =>
    by_cases hh : hd.1 = k
    · subst hh
      simp [alPut, alGet, h']
    · by_cases hk : hd.1 = k' <;> simp [alPut, alGet, hh, hk, ih, h]

theorem alGet_alDel_self {α : Type} (l : List (String × α)) (k : String) :
    alGet (alDel l k) k = none := by
  induction l with
  | nil => simp [alDel, alGet]
  | cons hd tl ih =>
    by_cases h : hd.1 = k <;>
      simp_all [alDel, alGet, List.filter_cons]

theorem alGet_alDel_ne {α : Type} (l : List (String × α)) {k k' : String}
    (h : k' ≠ k) : alGet (alDel l k) k' = alGet l k' := by
  induction l with
  | nil => simp [alDel, alGet]
  | cons hd tl ih =>
    by_cases hh : hd.1 = k
    · subst hh
      simp_all [alDel, alGet, List.filter_cons, Ne.symm h]
    · by_cases hk : hd.1 = k' <;> simp_all [alDel, alGet, List.filter_cons]

theorem alGet_eq_none_iff {α : Type} (l : List (String × α)) (k : String) :
    alGet l k = none ↔ k ∉ l.map Prod.fst := by
  induction l with
  | nil => simp [alGet]
  | cons hd tl ih =>
    by_cases h : hd.1 = k
    · simp [alGet, h]
    · have hne : ¬k = hd.1 := fun hh => h hh.symm
      simp [alGet, h, ih, hne]

/-- Taking from the front of a reversed list is taking from the back. -/
theorem reverse_take_of_reverse (l : Bytes) (n : Nat) :
    l.reverse.take n = (l.drop (l.length - n)).reverse := by
  calc l.reverse.take n = ((l.reverse.take n).reverse).reverse := by
        rw [List.reverse_reverse]
    _ = (l.reverse.reverse.drop (l.reverse.length - n)).reverse := by
        rw [List.reverse_take]
    _ = (l.drop (l.length - n)).reverse := by
        rw [List.reverse_reverse, List.length_reverse]

theorem reverse_take_sub (l : Bytes) (h : 128 ≤ l.length) :
    (l.take (l.length - 128)).reverse = l.reverse.drop 128 := by
  rw [List.reverse_take]
  have hh : l.length - (l.length - 128) = 128 := by omega
  rw [hh]

theorem commonPrefixNaive_le_left : ∀ a b : Bytes, commonPrefixNaive a b ≤ a.length := by
  intro a
  induction a with
  | nil => intro b; cases b <;> simp [commonPrefixNaive]
  | cons x xs ih =>
    intro b
    cases b with
    | nil => simp [commonPrefixNaive]
    | cons y ys =>
      by_cases h : x = y <;> simp [commonPrefixNaive, h]
      exact ih ys

theorem commonPrefixNaive_le_right : ∀ a b : Bytes, commonPrefixNaive a b ≤ b.length := by
  intro a
  induction a with
  | nil => intro b; cases b <;> simp [commonPrefixNaive]
  | cons x xs ih =>
    intro b
    cases b with
    | nil => simp [commonPrefixNaive]
    | cons y ys =>
      by_cases h : x = y <;> simp [commonPrefixNaive, h]
      exact ih ys

theorem take_commonPrefixNaive :
    ∀ a b : Bytes, a.take (commonPrefixNaive a b) = b.take (commonPrefixNaive a b) := by
  intro a
  induction a with
  | nil => intro b; cases b <;> simp [commonPrefixNaive]
  | cons x xs ih =>
    intro b
    cases b with
    | nil => simp [commonPrefixNaive]
    | cons y ys =>
      by_cases h : x = y <;> simp [commonPrefixNaive, h]
      exact ih ys

/-- Peeling an agreed-on block of `n` leading bytes off a naive scan. -/
theorem commonPrefixNaive_peel :
    ∀ (n : Nat) (a b : Bytes), a.take n = b.take n → n ≤ a.length → n ≤ b.length →
      commonPrefixNaive a b = n + commonPrefixNaive (a.drop n) (b.drop n) := by
  intro n
  induction n with
  | zero => intro a b _ _ _; simp
  | succ m ih =>
    intro a b htake ha hb
    cases a with
    | nil => simp at ha
    | cons x xs =>
      cases b with
      | nil => simp at hb
      | cons y ys =>
        simp only [List.take_succ_cons, List.cons.injEq] at htake
        simp only [List.length_cons] at ha hb
        obtain ⟨hxy, htl⟩ := htake
        subst hxy
        simp only [List.drop_succ_cons]
        simp only [commonPrefixNaive, eq_self_iff_true, if_true]
        have := ih xs ys htl (by omega) (by omega)
        omega

/-- The chunked computation agrees with the naive scan (prefix side). -/
theorem common_prefix_eq_naive (a b : Bytes) :
    common_prefix a b = commonPrefixNaive a b := by
  have H : ∀ (n : Nat) (a b : Bytes), a.length ≤ n →
      common_prefix a b = commonPrefixNaive a b := by
    intro n
    induction n with
    | zero =>
      intro a b ha
      have : a = [] := List.length_eq_zero.mp (Nat.le_zero.mp ha)
      subst this
      rw [ common_prefix, chunkPrefixBlocks]
      simp [commonPrefixNaive]
    | succ m ih =>
      intro a b ha
      rw [ common_prefix, chunkPrefixBlocks]
      by_cases h : 128 ≤ a.length ∧ 128 ≤ b.length ∧ a.take 128 = b.take 128
      · rw [dif_pos h]
        have hdrop : ∀ c : Nat, 128 * (c + 1) = 128 + 128 * c := by omega
        have hlen : (a.drop 128).length ≤ m := by
          simp only [List.length_drop]; omega
        have hrec := ih (a.drop 128) (b.drop 128) hlen
        rw [ common_prefix] at hrec
        rw [commonPrefixNaive_peel 128 a b h.2.2 h.1 h.2.1]
        simp only [hdrop, List.drop_drop] at *
        omega
      · rw [dif_neg h]
        simp
  exact H a.length a b (Nat.le_refl _)

/-- Trailing blocks of `a`,`b` are leading blocks of their reversals. -/
theorem chunkSuffixBlocks_eq_reverse (a b : Bytes) :
    chunkSuffixBlocks a b = chunkPrefixBlocks a.reverse b.reverse := by
  have H : ∀ (n : Nat) (a b : Bytes), a.length ≤ n →
      chunkSuffixBlocks a b = chunkPrefixBlocks a.reverse b.reverse := by
    intro n
    induction n with
    | zero =>
      intro a b ha
      have : a = [] := List.length_eq_zero.mp (Nat.le_zero.mp ha)
      subst this
      rw [chunkSuffixBlocks, chunkPrefixBlocks]
      simp
    | succ m ih =>
      intro a b ha
      have hiff : (a.drop (a.length - 128) = b.drop (b.length - 128)) ↔
          (a.reverse.take 128 = b.reverse.take 128) := by
        rw [reverse_take_of_reverse, reverse_take_of_reverse]
        constructor
        · intro h; rw [h]
        · intro h; exact List.reverse_injective h
      rw [chunkSuffixBlocks, chunkPrefixBlocks]
      by_cases h : 128 ≤ a.length ∧ 128 ≤ b.length ∧
          a.drop (a.length - 128) = b.drop (b.length - 128)
      · rw [dif_pos h]
        rw [dif_pos (by
          refine ⟨by simpa using h.1, by simpa using h.2.1, ?_⟩
          exact hiff.mp h.2.2)]
        have hlen : (a.take (a.length - 128)).length ≤ m := by
          simp only [List.length_take]; omega
        rw [ih (a.take (a.length - 128)) (b.take (b.length - 128)) hlen]
        rw [reverse_take_sub a h.1, reverse_take_sub b h.2.1]
      · rw [dif_neg h]
        rw [dif_neg (by
          intro hc
          exact h ⟨by simpa using hc.1, by simpa using hc.2.1, hiff.mpr hc.2.2⟩)]
  exact H a.length a b (Nat.le_refl _)

theorem chunkSuffixBlocks_le (a b : Bytes) :
    128 * chunkSuffixBlocks a b ≤ a.length ∧ 128 * chunkSuffixBlocks a b ≤ b.length := by
  have H : ∀ (n : Nat) (a b : Bytes), a.length ≤ n →
      128 * chunkSuffixBlocks a b ≤ a.length ∧ 128 * chunkSuffixBlocks a b ≤ b.length := by
    intro n
    induction n with
    | zero =>
      intro a b ha
      have : a = [] := List.length_eq_zero.mp (Nat.le_zero.mp ha)
      subst this
      rw [chunkSuffixBlocks]; simp
    | succ m ih =>
      intro a b ha
      rw [chunkSuffixBlocks]
      by_cases h : 128 ≤ a.length ∧ 128 ≤ b.length ∧
          a.drop (a.length - 128) = b.drop (b.length - 128)
      · rw [dif_pos h]
        have hlen : (a.take (a.length - 128)).length ≤ m := by
          simp only [List.length_take]; omega
        have := ih (a.take (a.length - 128)) (b.take (b.length - 128)) hlen
        simp only [List.length_take] at this
        omega
      · rw [dif_neg h]; simp
  exact H a.length a b (Nat.le_refl _)

/-- The chunked computation agrees with the naive scan (suffix side). -/
theorem common_suffix_eq_naive (a b : Bytes) :
    common_suffix a b = commonSuffixNaive a b := by
  rw [common_suffix, commonSuffixNaive]
  have hle := chunkSuffixBlocks_le a b
  rw [chunkSuffixBlocks_eq_reverse]
  rw [chunkSuffixBlocks_eq_reverse] at hle
  set off := 128 * chunkPrefixBlocks a.reverse b.reverse with hoff
  have hta : (a.take (a.length - off)).reverse = a.reverse.drop off := by
    rw [List.reverse_take]; congr 1; omega
  have htb : (b.take (b.length - off)).reverse = b.reverse.drop off := by
    rw [List.reverse_take]; congr 1; omega
  rw [hta, htb]
  have := common_prefix_eq_naive a.reverse b.reverse
  rw [ common_prefix] at this
  simpa using this

theorem common_prefix_le_left (a b : Bytes) : common_prefix a b ≤ a.length := by
  rw [ common_prefix_eq_naive]; exact commonPrefixNaive_le_left a b

theorem common_prefix_le_right (a b : Bytes) : common_prefix a b ≤ b.length := by
  rw [ common_prefix_eq_naive]; exact commonPrefixNaive_le_right a b

theorem take_common_prefix_eq (a b : Bytes) :
    a.take ( common_prefix a b) = b.take ( common_prefix a b) := by
  rw [ common_prefix_eq_naive]; exact take_commonPrefixNaive a b

theorem common_suffix_le_left (a b : Bytes) : common_suffix a b ≤ a.length := by
  rw [common_suffix_eq_naive, commonSuffixNaive]
  simpa using commonPrefixNaive_le_left a.reverse b.reverse

theorem common_suffix_le_right (a b : Bytes) : common_suffix a b ≤ b.length := by
  rw [common_suffix_eq_naive, commonSuffixNaive]
  simpa using commonPrefixNaive_le_right a.reverse b.reverse

/-- The shared trailing runs found by `common_suffix` are equal as lists. -/
theorem common_suffix_drop_eq (a b : Bytes) :
    a.drop (a.length - common_suffix a b) = b.drop (b.length - common_suffix a b) := by
  rw [common_suffix_eq_naive, commonSuffixNaive]
  have h := take_commonPrefixNaive a.reverse b.reverse
  rw [reverse_take_of_reverse, reverse_take_of_reverse] at h
  exact List.reverse_injective h

/-- The splice computed from any prefix/suffix split satisfying the
agreement and bound conditions reconstructs exactly the new content. -/
theorem splice_text_spec (oldC newC : Bytes) (p s : Nat)
    (hp1 : p ≤ oldC.length) (hp2 : p ≤ newC.length)
    (hpt : newC.take p = oldC.take p)
    (hs1 : s ≤ oldC.length - p) (hs2 : s ≤ newC.length - p)
    (hst : (newC.drop p).drop ((newC.drop p).length - s)
         = (oldC.drop p).drop ((oldC.drop p).length - s)) :
    splice_text oldC p (oldC.length - p - s)
      ((newC.take (newC.length - s)).drop p) = newC := by
  rw [splice_text]
  have e1 : p + (oldC.length - p - s) = oldC.length - s := by omega
  rw [e1]
  rw [List.length_drop, List.length_drop, List.drop_drop, List.drop_drop] at hst
  have ex : p + (newC.length - p - s) = newC.length - s := by omega
  have ey : p + (oldC.length - p - s) = oldC.length - s := by omega
  rw [ex, ey] at hst
  rw [← hst, ← hpt]
  have e4 : (newC.take (newC.length - s)).take p = newC.take p := by
    rw [List.take_take, Nat.min_eq_left (by omega)]
  rw [← e4, List.take_append_drop, List.take_append_drop]

/-- The splice computed by the `Content` update from its actual
prefix/suffix lengths reconstructs the new content, whether or not the
source would take this path. -/
theorem splice_path_eq (oldC newC : Bytes) :
    splice_text oldC ( common_prefix newC oldC)
      (oldC.length - common_prefix newC oldC -
        common_suffix (newC.drop ( common_prefix newC oldC))
          (oldC.drop ( common_prefix newC oldC)))
      ((newC.take (newC.length -
        common_suffix (newC.drop ( common_prefix newC oldC))
          (oldC.drop ( common_prefix newC oldC)))).drop
        ( common_prefix newC oldC)) = newC := by
  apply splice_text_spec
  · exact common_prefix_le_right newC oldC
  · exact common_prefix_le_left newC oldC
  · exact take_common_prefix_eq newC oldC
  · have := common_suffix_le_right (newC.drop ( common_prefix newC oldC))
      (oldC.drop ( common_prefix newC oldC))
    simpa using this
  · have := common_suffix_le_left (newC.drop ( common_prefix newC oldC))
      (oldC.drop ( common_prefix newC oldC))
    simpa using this
  · exact common_suffix_drop_eq (newC.drop ( common_prefix newC oldC))
      (oldC.drop ( common_prefix newC oldC))

/-- Shared helper for the round-trip invariant: *when the text-update path
of `ItemUpdate::Content` returns at all* (i.e. the byte-computed boundaries
are char boundaries and the source does not panic), it leaves the node
equal to the new content. -/
theorem contentTextUpdate_some (oldC newC r : Bytes)
    (h : contentTextUpdate oldC newC = some r) : r = newC := by
  rw [contentTextUpdate] at h
  by_cases hb : is_char_boundary newC ( common_prefix newC oldC) = true ∧
      is_char_boundary oldC ( common_prefix newC oldC) = true
  · rw [if_pos hb] at h
    by_cases hsp : 0 < common_prefix newC oldC ∨
        0 < common_suffix (newC.drop ( common_prefix newC oldC))
              (oldC.drop ( common_prefix newC oldC))
    · rw [if_pos hsp] at h
      by_cases hb2 : is_char_boundary newC
          (newC.length - common_suffix (newC.drop ( common_prefix newC oldC))
            (oldC.drop ( common_prefix newC oldC))) = true
      · rw [if_pos hb2] at h
        have hr := Option.some.inj h
        rw [← hr]
        exact splice_path_eq oldC newC
      · rw [if_neg hb2] at h
        exact absurd h (by simp)
    · rw [if_neg hsp] at h
      exact (Option.some.inj h).symm
  · rw [if_neg hb] at h
    exact absurd h (by simp)

/-- Sanity: inserting `itemA` into the empty state produces the fixtures. -/
theorem with_item_itemA : with_item ⟨[]⟩ itemA [] = (none, projA, docA) := rfl

/-! ## Claims -/

/-- **C4** (confirmed).  Chunked vs naive diff equivalence: for every pair
of byte strings, including empty ones, `common_prefix` computed with the
128-byte block-then-byte strategy equals the length of the longest shared
leading byte run computed by a naive byte-by-byte scan, and `common_suffix`
equals the length of the longest shared trailing byte run computed the same
naive way. -/
theorem chunked_vs_naive_diff_equivalence (a b : Bytes) :
    common_prefix a b = commonPrefixNaive a b ∧
    common_suffix a b = commonSuffixNaive a b :=
  ⟨common_prefix_eq_naive a b, common_suffix_eq_naive a b⟩

/-- **C3** (code bug).  Minimal text diff equivalence fails on the program:
the splice path slices `&str` values at *byte* indices computed by the
byte-wise diff (item.rs:264-277), and Rust `&str` range indexing panics
when such an index is not a UTF-8 char boundary.  Concretely, with
`old = "é"` (bytes `C3 A9`) and `new = "è"` (bytes `C3 A8`) — both valid
UTF-8 text contents — the byte-wise common prefix is 1, byte 1 sits inside
the two-byte character on both sides, and `new_content_str[1..]` panics, so
the update aborts instead of leaving the text equal to `new`.  The claim's
"for every pair of old and new text contents … equal to the new content,
regardless of which path executes" is therefore false of the program (the
model marks the panic as `none`/`panicked`); for boundary-aligned splits
the equality does hold, see `splice_path_eq` / `contentTextUpdate_some`. -/
theorem minimal_text_diff_panic :
    common_prefix [195, 168] [195, 169] = 1 ∧
    is_char_boundary [195, 168] 1 = false ∧
    is_char_boundary [195, 169] 1 = false ∧
    contentTextUpdate [195, 169] [195, 168] = none ∧
    applyContentEdit { itemA with content := [195, 169] } nodeEAcute [195, 168] =
      (some .panicked, { itemA with content := [195, 168] }, nodeEAcute) := by
  have h1 : common_prefix [195, 168] [195, 169] = 1 := by
    rw [ common_prefix, chunkPrefixBlocks]
    simp [commonPrefixNaive]
  have h4 : contentTextUpdate [195, 169] [195, 168] = none := by
    rw [contentTextUpdate]
    simp only [h1]
    rw [if_neg (by decide)]
  refine ⟨h1, rfl, rfl, h4, ?_⟩
  rw [applyContentEdit]
  rw [if_neg (by decide)]
  rw [if_pos (by decide)]
  rw [if_neg (by decide)]
  show (match contentTextUpdate [195, 169] [195, 168] with
    | some newT =>
      ((none : Option AuError), { itemA with content := ([195, 168] : Bytes) },
        alPut nodeEAcute "content" (.text newT))
    | none => (some AuError.panicked,
        { itemA with content := ([195, 168] : Bytes) }, nodeEAcute)) = _
  rw [h4]

theorem itemLt_iff (a b : Item) :
    itemLt a b = true ↔ (a.rank > b.rank ∨ (a.rank = b.rank ∧ a.atNs < b.atNs)) := by
  rw [itemLt, itemCmp]
  by_cases h : a.rank > b.rank ∨ (a.rank = b.rank ∧ a.atNs < b.atNs)
  · rw [if_pos h]
    exact iff_of_true (by decide) h
  · rw [if_neg h]
    by_cases h2 : a.rank > b.rank ∨ (a.rank = b.rank ∧ a.atNs > b.atNs)
    · rw [if_pos h2]
      exact iff_of_false (by decide) h
    · rw [if_neg h2]
      exact iff_of_false (by decide) h

theorem itemLt_imp_ordered {a b : Item} (h : itemLt a b = true) : itemOrdered a b := by
  rw [itemLt_iff] at h
  rw [itemOrdered]
  omega

theorem not_itemLt_imp_ordered {a b : Item} (h : ¬itemLt a b = true) :
    itemOrdered b a := by
  rw [itemLt_iff] at h
  rw [itemOrdered]
  omega

theorem itemOrdered_trans {a b c : Item} (h1 : itemOrdered a b)
    (h2 : itemOrdered b c) : itemOrdered a c := by
  rw [itemOrdered] at *
  omega

theorem insertSorted_perm (x : Item) (l : List Item) :
    (insertSorted x l).Perm (x :: l) := by
  induction l with
  | nil => simp [insertSorted]
  | cons y ys ih =>
    rw [insertSorted]
    by_cases h : itemLt x y = true
    · simp [h]
    · simp only [h, if_false]
      exact (ih.cons y).trans (List.Perm.swap x y ys)

theorem sortItems_perm (l : List Item) : (sortItems l).Perm l := by
  induction l with
  | nil => simp [sortItems]
  | cons x xs ih =>
    rw [sortItems]
    exact (insertSorted_perm x (sortItems xs)).trans (ih.cons x)

theorem insertSorted_pairwise (x : Item) (l : List Item)
    (h : l.Pairwise itemOrdered) :
    (insertSorted x l).Pairwise itemOrdered := by
  induction l with
  | nil => simp [insertSorted]
  | cons y ys ih =>
    rw [List.pairwise_cons] at h
    rw [insertSorted]
    by_cases hlt : itemLt x y = true
    · rw [if_pos hlt]
      refine List.Pairwise.cons ?_ (List.Pairwise.cons h.1 h.2)
      intro z hz
      rcases List.mem_cons.mp hz with hz | hz
      · exact hz ▸ itemLt_imp_ordered hlt
      · exact itemOrdered_trans (itemLt_imp_ordered hlt) (h.1 z hz)
    · rw [if_neg hlt]
      refine List.Pairwise.cons ?_ (ih h.2)
      intro z hz
      have hmem : z = x ∨ z ∈ ys := by
        have := (insertSorted_perm x ys).mem_iff.mp hz
        simpa using this
      rcases hmem with hz' | hz'
      · exact hz' ▸ not_itemLt_imp_ordered hlt
      · exact h.1 z hz'

theorem sortItems_pairwise (l : List Item) :
    (sortItems l).Pairwise itemOrdered := by
  induction l with
  | nil => simp [sortItems]
  | cons x xs ih =>
    rw [sortItems]
    exact insertSorted_pairwise x (sortItems xs) ih

/-- **C6** (confirmed).  Sibling ordering: for every `Project` and every
parent argument, `list_children` returns exactly the items whose parent
field matches (as a permutation of the filtered index entries), and the
returned list is sorted with rank descending as primary key and, for equal
ranks, timestamps non-decreasing: every element's rank is ≥ the next
element's rank, and among equal ranks the earlier timestamp comes first. -/
theorem sibling_ordering (p : Project) (parent : Option String) :
    (list_children p parent).Perm
      ((p.children.filter (fun kv => parentMatches parent kv.2.parent)).map Prod.snd) ∧
    (list_children p parent).Chain'
      (fun a b => b.rank ≤ a.rank ∧ (b.rank = a.rank → a.atNs ≤ b.atNs)) := by
  constructor
  · exact sortItems_perm _
  · have h := sortItems_pairwise
      ((p.children.filter (fun kv => parentMatches parent kv.2.parent)).map Prod.snd)
    rw [list_children]
    exact List.Pairwise.chain' h

/-! ### Value codec contract (C7, C8) -/

/-- **C7** (counterexample).  The claim requires every typed getter to fail
with an incorrect-type error whenever the key is present with an unexpected
shape; but `decode_string` on a key holding a *map object* returns
`Ok(None)` (its match has no object arm, only the `_ => Ok(None)`
wildcard), i.e. it treats the key as missing instead of failing. -/
theorem value_codec_shape_counterexample :
    decode_string [("k", AmValue.mapObj [])] "k" = .ok none ∧
    decode_string [("k", AmValue.mapObj [])] "k" ≠
      .error (.incorrectType "k" "string") := by
  constructor
  · rfl
  · intro h
    simp [decode_string, alGet] at h

/-- **C7** (amended).  Value codec contract: every getter returns `Ok(None)`
on a missing key.  A key present with a *scalar* of the wrong shape is a
typed incorrect-type error naming the key and the expected type.  A key
present with an *object* value however is treated as missing (`Ok(None)`)
by `decode_string`, `decode_i64`, `decode_timestamp`, and — for map/list
objects — `decode_content`; only `decode_bool` rejects every present
non-boolean value, and `decode_content` additionally resolves text objects
and byte scalars successfully. -/
theorem value_codec_contract (m : AmMap) (k : String) :
    (alGet m k = none →
      decode_string m k = .ok none ∧ decode_bool m k = .ok none ∧
      decode_i64 m k = .ok none ∧ decode_timestamp m k = .ok none ∧
      decode_content m k = .ok none) ∧
    (∀ v : AmScalar, alGet m k = some (.scalar v) →
      (v.is_str = false → decode_string m k = .error (.incorrectType k "string")) ∧
      (∀ s, v = .str s → decode_string m k = .ok (some s)) ∧
      (v.is_boolean = false → decode_bool m k = .error (.incorrectType k "bool")) ∧
      (∀ b, v = .boolean b → decode_bool m k = .ok (some b)) ∧
      (v.is_int = false → decode_i64 m k = .error (.incorrectType k "i64")) ∧
      (∀ n, v = .int n → decode_i64 m k = .ok (some n)) ∧
      (v.is_timestamp = false →
        decode_timestamp m k = .error (.incorrectType k "timestamp")) ∧
      (v.to_bytes = none → decode_content m k = .error (.incorrectType k "text")) ∧
      (∀ bs, v = .bytes bs → decode_content m k = .ok (some bs))) ∧
    (∀ entries, alGet m k = some (.mapObj entries) →
      decode_string m k = .ok none ∧ decode_i64 m k = .ok none ∧
      decode_timestamp m k = .ok none ∧ decode_content m k = .ok none ∧
      decode_bool m k = .error (.incorrectType k "bool")) ∧
    (alGet m k = some .listObj →
      decode_string m k = .ok none ∧ decode_i64 m k = .ok none ∧
      decode_timestamp m k = .ok none ∧ decode_content m k = .ok none ∧
      decode_bool m k = .error (.incorrectType k "bool")) ∧
    (∀ t, alGet m k = some (.text t) →
      decode_string m k = .ok none ∧ decode_i64 m k = .ok none ∧
      decode_timestamp m k = .ok none ∧ decode_content m k = .ok (some t) ∧
      decode_bool m k = .error (.incorrectType k "bool")) := by
  refine ⟨?_, ?_, ?_, ?_, ?_⟩
  · intro h
    simp [decode_string, decode_bool, decode_i64, decode_timestamp, decode_content, h]
  · intro v hv
    refine ⟨?_, ?_, ?_, ?_, ?_, ?_, ?_, ?_, ?_⟩
    · intro hs
      simp [decode_string, hv, hs]
    · intro s hs
      subst hs
      simp [decode_string, hv, AmScalar.is_str, AmScalar.to_str]
    · intro hb
      simp [decode_bool, hv, hb]
    · intro b hb
      subst hb
      simp [decode_bool, hv, AmScalar.is_boolean, AmScalar.to_bool]
    · intro hi
      simp [decode_i64, hv, hi]
    · intro n hn
      subst hn
      simp [decode_i64, hv, AmScalar.is_int, AmScalar.to_i64]
    · intro ht
      simp [decode_timestamp, hv, ht]
    · intro hb
      simp [decode_content, hv, hb]
    · intro bs hb
      subst hb
      simp [decode_content, hv, AmScalar.to_bytes]
  · intro entries h
    simp [decode_string, decode_bool, decode_i64, decode_timestamp, decode_content, h]
  · intro h
    simp [decode_string, decode_bool, decode_i64, decode_timestamp, decode_content, h]
  · intro t h
    simp [decode_string, decode_bool, decode_i64, decode_timestamp, decode_content, h]

/-- Witness for C7 (amended) at concrete inputs: an integer under the key
is a type error for `decode_string`, and a map object under the key is
"no value" for `decode_string` but a type error for `decode_bool`. -/
theorem value_codec_contract_witness :
    decode_string [("k", AmValue.scalar (.int 42))] "k" =
      .error (.incorrectType "k" "string") ∧
    decode_string [("k", AmValue.mapObj [])] "k" = .ok none ∧
    decode_bool [("k", AmValue.mapObj [])] "k" =
      .error (.incorrectType "k" "bool") := by
  refine ⟨?_, ?_, ?_⟩
  · exact ((value_codec_contract [("k", AmValue.scalar (.int 42))] "k").2.1
      (.int 42) rfl).1 rfl
  · exact ((value_codec_contract [("k", AmValue.mapObj [])] "k").2.2.1 [] rfl).1
  · exact ((value_codec_contract [("k", AmValue.mapObj [])] "k").2.2.1 [] rfl).2.2.2.2

/-- **C8** (confirmed).  Timestamp decoding is panic-free: for a scalar
timestamp stored under the key with an `i64` millisecond payload,
`decode_timestamp` converts it to the domain timestamp (nanoseconds,
`ms * 10^6`) when representable, and returns an incorrect-type error — not
a panic (the model is total; the source's only `unwrap` sits behind the
`is_timestamp` guard that guarantees it succeeds) — for every out-of-range
payload, including every negative (pre-1970) one, whose wrapping `as u64`
cast lands far above the representable range. -/
theorem timestamp_decoding_panic_free (m : AmMap) (k : String) (n : Int)
    (hlo : -(2 : Int) ^ 63 ≤ n) (hhi : n < 2 ^ 63)
    (hget : alGet m k = some (.scalar (.timestamp n))) :
    (0 ≤ n ∧ n * 1000000 ≤ maxTimestampNanos →
      decode_timestamp m k = .ok (some (n * 1000000))) ∧
    ((n < 0 ∨ maxTimestampNanos < n * 1000000) →
      decode_timestamp m k = .error (.incorrectType k "timestamp")) := by
  have hts : AmScalar.is_timestamp (.timestamp n) = true := rfl
  constructor
  · rintro ⟨h0, hmax⟩
    have hw : wrapU64 n = n := by
      rw [wrapU64]; omega
    have hcond : minTimestampNanos ≤ n * 1000000 ∧ n * 1000000 ≤ maxTimestampNanos := by
      rw [minTimestampNanos]
      rw [maxTimestampNanos] at hmax ⊢
      omega
    rw [decode_timestamp, hget]
    simp only [hts, Bool.not_true, if_false, AmScalar.to_u64, Option.getD, hw]
    rw [from_unix_timestamp_nanos, if_pos hcond]
    simp
  · intro hbad
    have hncond : ¬(minTimestampNanos ≤ wrapU64 n * 1000000 ∧
        wrapU64 n * 1000000 ≤ maxTimestampNanos) := by
      rcases hbad with hneg | hover
      · have hw : wrapU64 n = n + 2 ^ 64 := by
          rw [wrapU64]; omega
        rw [hw, minTimestampNanos, maxTimestampNanos]
        omega
      · rw [maxTimestampNanos] at hover
        have hw : wrapU64 n = n := by
          rw [wrapU64]; omega
        rw [hw, minTimestampNanos, maxTimestampNanos]
        omega
    rw [decode_timestamp, hget]
    simp only [hts, Bool.not_true, if_false, AmScalar.to_u64, Option.getD]
    rw [from_unix_timestamp_nanos, if_neg hncond]
    simp

/-- Witness for C8: the fixture timestamp `1_711_959_236_000` ms decodes to
its nanosecond value, and `-1` ms is an incorrect-type error. -/
theorem timestamp_decoding_panic_free_witness :
    decode_timestamp [("thing", AmValue.scalar (.timestamp 1711959236000))] "thing" =
      .ok (some 1711959236000000000) ∧
    decode_timestamp [("thing", AmValue.scalar (.timestamp (-1)))] "thing" =
      .error (.incorrectType "thing" "timestamp") := by
  constructor
  · exact (timestamp_decoding_panic_free
      [("thing", AmValue.scalar (.timestamp 1711959236000))] "thing" 1711959236000
      (by decide) (by decide) rfl).1 ⟨by decide, by rw [maxTimestampNanos]; decide⟩
  · exact (timestamp_decoding_panic_free
      [("thing", AmValue.scalar (.timestamp (-1)))] "thing" (-1)
      (by decide) (by decide) rfl).2 (Or.inl (by decide))

/-! ### Insert / Delete all-or-nothing (C5) -/

/-- **C5** (confirmed).  Insert and Delete are all-or-nothing on validation
failure: `with_item` with an empty id, a duplicate id, or a parent not in
the index returns the corresponding typed error with document and index
untouched; `without_item` with a missing id or with children returns its
typed error with both untouched; and when its preconditions hold,
`without_item` removes the item from both document and index. -/
theorem insert_delete_all_or_nothing (p : Project) (item : Item) (id : String)
    (doc : AmMap) :
    (item.id = "" →
      with_item p item doc = (some (.invalidField "id" "empty"), p, doc)) ∧
    (∀ it0, item.id ≠ "" → alGet p.children item.id = some it0 →
      with_item p item doc = (some (.invalidField "id" "duplicate key"), p, doc)) ∧
    (∀ par, item.id ≠ "" → alGet p.children item.id = none →
      item.parent = some par → alGet p.children par = none →
      with_item p item doc = (some (.invalidField "parent" "does not exist"), p, doc)) ∧
    (alGet p.children id = none →
      without_item p id doc = (some (.noSuchKey id), p, doc)) ∧
    (∀ it0, alGet p.children id = some it0 → has_children p (some id) = true →
      without_item p id doc = (some (.invalidOperation id "has children"), p, doc)) ∧
    (∀ it0 e p' d', alGet p.children id = some it0 →
      has_children p (some id) = false → without_item p id doc = (e, p', d') →
      e = none ∧ alGet p'.children id = none ∧
      ∃ items', alGet d' "items" = some (.mapObj items') ∧ alGet items' id = none) := by
  refine ⟨?_, ?_, ?_, ?_, ?_, ?_⟩
  · intro h
    simp [with_item, h]
  · intro it0 h1 h2
    simp [with_item, h1, h2]
  · intro par h1 h2 h3 h4
    simp [with_item, h1, h2, h3, h4]
  · intro h
    simp [without_item, h]
  · intro it0 h1 h2
    simp [without_item, h1, h2]
  · intro it0 e p' d' h1 h2 heq
    rw [without_item] at heq
    rw [if_neg (by simp [h1])] at heq
    rw [if_neg (by simp [h2])] at heq
    injection heq with he hrest
    injection hrest with hp hd
    subst he
    subst hp
    subst hd
    refine ⟨rfl, alGet_alDel_self _ _, ?_⟩
    exact ⟨_, alGet_alPut_self _ _ _, alGet_alDel_self _ _⟩

/-- Witness for C5 at concrete inputs: empty-id insert, duplicate insert,
dangling-parent insert, delete of a missing id, and a successful leaf
delete. -/
theorem insert_delete_all_or_nothing_witness :
    with_item projA { itemA with id := "" } docA =
      (some (.invalidField "id" "empty"), projA, docA) ∧
    with_item projA itemA docA =
      (some (.invalidField "id" "duplicate key"), projA, docA) ∧
    with_item projA { itemA with id := "item-b", parent := some "zzz" } docA =
      (some (.invalidField "parent" "does not exist"), projA, docA) ∧
    without_item projA "zzz" docA = (some (.noSuchKey "zzz"), projA, docA) ∧
    (alGet (without_item projA "item-a" docA).2.1.children "item-a" = none ∧
      ∃ items', alGet (without_item projA "item-a" docA).2.2 "items" =
          some (.mapObj items') ∧ alGet items' "item-a" = none) := by
  refine ⟨?_, ?_, ?_, ?_, ?_⟩
  · exact (insert_delete_all_or_nothing projA { itemA with id := "" } "x" docA).1 rfl
  · exact (insert_delete_all_or_nothing projA itemA "x" docA).2.1 itemA (by decide) rfl
  · exact (insert_delete_all_or_nothing projA
      { itemA with id := "item-b", parent := some "zzz" } "x" docA).2.2.1
      "zzz" (by decide) rfl rfl rfl
  · exact (insert_delete_all_or_nothing projA itemA "zzz" docA).2.2.2.1 rfl
  · have h := (insert_delete_all_or_nothing projA itemA "item-a" docA).2.2.2.2.2
      itemA (without_item projA "item-a" docA).1
      (without_item projA "item-a" docA).2.1
      (without_item projA "item-a" docA).2.2 rfl rfl rfl
    exact ⟨h.2.1, h.2.2⟩

/-! ### Update error handling (C9, C10) -/

/-- Splitting an edit list around the first failure. -/
theorem applyEdits_append (p : Project) (id : String) (us vs : List ItemUpdate) :
    ∀ (it : Item) (node : AmMap),
    applyEdits p id it node (us ++ vs) =
      match applyEdits p id it node us with
      | (none, it', node') => applyEdits p id it' node' vs
      | (some e, it', node') => (some e, it', node') := by
  induction us with
  | nil => intro it node; simp [applyEdits]
  | cons u us ih =>
    intro it node
    rw [List.cons_append, applyEdits, applyEdits]
    rcases h : applyEdit p id it node u with ⟨eopt, it', node'⟩
    cases eopt with
    | none => simp [ih]
    | some e => simp

/-- **C10** (confirmed).  Index atomicity of update: whenever
`with_updated_item` returns an error, the in-memory index is completely
unchanged — the cloned snapshot is installed only after every edit
succeeds — even though the document may already reflect earlier edits of
the same call. -/
theorem index_atomicity_of_update (p : Project) (id : String)
    (updates : List ItemUpdate) (doc : AmMap) (e : AuError) (p' : Project)
    (d' : AmMap) (hcall : with_updated_item p id updates doc = (some e, p', d')) :
    p' = p := by
  have hcore : ∀ target items doc1,
      with_updated_item_core p id updates target items doc1 = (some e, p', d') →
      p' = p := by
    intro target items doc1 h
    rw [with_updated_item_core] at h
    split at h
    · split at h
      · injection h with h1 _
        exact absurd h1 (by simp)
      · injection h with _ hrest
        injection hrest with hp _
        exact hp.symm
    · injection h with _ hrest
      injection hrest with hp _
      exact hp.symm
    · injection h with _ hrest
      injection hrest with hp _
      exact hp.symm
  rw [with_updated_item] at hcall
  split at hcall
  · injection hcall with _ hrest
    injection hrest with hp _
    exact hp.symm
  · split at hcall
    · exact hcore _ _ _ hcall
    · exact hcore _ _ _ hcall

/-- Witness for C10: a failing update call (unknown id) leaves the index
exactly as it was. -/
theorem index_atomicity_of_update_witness :
    (with_updated_item projA "zzz" [] docA).2.1 = projA :=
  index_atomicity_of_update projA "zzz" [] docA (.noSuchKey "zzz") _ _ rfl

/-- **C9** (counterexample).  The claim says a call whose edit `k` fails
after earlier edits wrote leaves *the index* showing the effects of edits
`1..k-1`.  Concretely: updating `item-a` with `[Rank 5, Parent("zzz")]`
fails on the second edit with not-found after the first edit wrote rank 5
to the document — but the index entry still shows rank 0, not rank 5. -/
theorem partial_update_counterexample :
    (with_updated_item projA "item-a" [.Rank 5, .Parent (some "zzz")] docA).1 =
      some (.noSuchKey "zzz") ∧
    docItemField (with_updated_item projA "item-a"
      [.Rank 5, .Parent (some "zzz")] docA).2.2 "item-a" "rank" =
      some (.scalar (.int 5)) ∧
    get_item (with_updated_item projA "item-a"
      [.Rank 5, .Parent (some "zzz")] docA).2.1 "item-a" = some itemA ∧
    itemA.rank = 0 := ⟨rfl, rfl, rfl, rfl⟩

/-- **C9** (amended).  Partial-update semantics: when edit `k` of a
`with_updated_item` call fails after edits `1..k-1` succeeded, the call
returns edit `k`'s error, the remaining edits are not attempted, the
*document* is left reflecting the successful edits' writes plus whatever
edit `k` wrote before failing (no rollback), and the *index* is left
completely unchanged. -/
theorem partial_update_semantics (p : Project) (id : String) (target : Item)
    (good : List ItemUpdate) (bad : ItemUpdate) (rest : List ItemUpdate)
    (doc items node : AmMap) (it1 : Item) (node1 : AmMap) (e : AuError)
    (it2 : Item) (node2 : AmMap)
    (htarget : alGet p.children id = some target)
    (hitems : find_items_node doc = .ok items)
    (hnode : alGet items id = some (.mapObj node))
    (hgood : applyEdits p id target node good = (none, it1, node1))
    (hbad : applyEdit p id it1 node1 bad = (some e, it2, node2)) :
    with_updated_item p id (good ++ bad :: rest) doc =
      (some e, p, alPut doc "items" (.mapObj (alPut items id (.mapObj node2)))) := by
  simp only [with_updated_item, htarget, hitems]
  simp only [with_updated_item_core, hnode]
  rw [applyEdits_append]
  simp only [hgood]
  simp only [applyEdits, hbad]

/-- Witness for C9 (amended) on the counterexample run: the rank edit
succeeds, the parent edit fails with not-found, and the final state is the
written-back document with the index untouched. -/
theorem partial_update_semantics_witness :
    with_updated_item projA "item-a" [.Rank 5, .Parent (some "zzz")] docA =
      (some (.noSuchKey "zzz"), projA,
        alPut docA "items" (.mapObj (alPut [("item-a", .mapObj nodeA)] "item-a"
          (.mapObj (alPut nodeA "rank" (.scalar (.int 5))))))) :=
  partial_update_semantics projA "item-a" itemA [.Rank 5] (.Parent (some "zzz"))
    [] docA [("item-a", .mapObj nodeA)] nodeA { itemA with rank := 5 }
    (alPut nodeA "rank" (.scalar (.int 5))) (.noSuchKey "zzz")
    { itemA with rank := 5 } (alPut nodeA "rank" (.scalar (.int 5)))
    rfl rfl rfl rfl rfl

theorem find_items_node_of_get {doc : AmMap} {items : AmMap}
    (h : alGet doc "items" = some (.mapObj items)) :
    find_items_node doc = .ok items := by
  rw [find_items_node, h]

/-- Decoding the stored millisecond timestamp of an aligned `at` recovers
it exactly. -/
theorem decode_timestamp_encode (node : AmMap) (t : Int) (h : atAligned t)
    (hget : alGet node "at" = some (.scalar (.timestamp (encode_at t)))) :
    decode_timestamp node "at" = .ok (some t) := by
  obtain ⟨h0, hmod, hmax⟩ := h
  rw [maxTimestampNanos] at hmax
  have hdiv : encode_at t = t / 1000000 := by
    rw [encode_at, Int.tdiv_eq_ediv h0 (by omega), wrapI64]
    omega
  rw [hdiv] at hget
  have hwrap : wrapU64 (t / 1000000) = t / 1000000 := by
    rw [wrapU64]
    omega
  have hmul : t / 1000000 * 1000000 = t := by omega
  have hts : AmScalar.is_timestamp (.timestamp (t / 1000000)) = true := rfl
  have hcond : minTimestampNanos ≤ t ∧ t ≤ maxTimestampNanos := by
    constructor
    · rw [minTimestampNanos]; omega
    · rw [maxTimestampNanos]; omega
  rw [decode_timestamp, hget]
  simp only [hts, Bool.not_true, if_false, AmScalar.to_u64, Option.getD, hwrap, hmul]
  rw [from_unix_timestamp_nanos, if_pos hcond]
  simp

/-- `decode_string` recovers an optional string field stored as in
`NodeEnc`. -/
theorem decode_string_opt (node : AmMap) (k : String) (o : Option String)
    (hget : alGet node k = o.map (fun s => .scalar (.str s))) :
    decode_string node k = .ok o := by
  cases o with
  | none => simp only [Option.map_none'] at hget; simp [decode_string, hget]
  | some s =>
    simp only [Option.map_some'] at hget
    simp [decode_string, hget, AmScalar.is_str, AmScalar.to_str]

/-- A faithfully encoded item node decodes back to the item. -/
theorem decode_item_enc (items : AmMap) (k : String) (node : AmMap) (it : Item)
    (hget : alGet items k = some (.mapObj node)) (henc : NodeEnc node it)
    (hal : atAligned it.atNs) (hid : it.id = k) :
    decode_item items k = .ok (some it) := by
  obtain ⟨hat, hct, hrank, hcontent, hpar, hcls⟩ := henc
  have h1 : decode_timestamp node "at" = .ok (some it.atNs) :=
    decode_timestamp_encode node it.atNs hal hat
  have h2 : decode_content node "content" = .ok (some it.content) := by
    rcases hcontent with hc | hc
    · simp [decode_content, hc]
    · simp [decode_content, hc, AmScalar.to_bytes]
  have h3 : decode_string node "content_type" = .ok (some it.content_type) := by
    simp [decode_string, hct, AmScalar.is_str, AmScalar.to_str]
  have h4 : decode_string node "parent" = .ok it.parent :=
    decode_string_opt node "parent" it.parent hpar
  have h5 : decode_string node "class" = .ok it.cls :=
    decode_string_opt node "class" it.cls hcls
  have h6 : decode_i64 node "rank" = .ok (some it.rank) := by
    simp [decode_i64, hrank, AmScalar.is_int, AmScalar.to_i64]
  rw [decode_item, hget]
  simp only [decode_item_inner, h1, h2, h3, h4, h5, h6, bind, Except.bind,
    pure, Except.pure, Option.getD]
  obtain ⟨iid, iat, icls, ict, icont, irank, ipar⟩ := it
  simp only at hid
  subst hid
  rfl

/-- The decode loop succeeds over any key set on which `decode_item`
succeeds, and the accumulated index is given by lookups. -/
theorem decode_project_go_ok (items : AmMap) (ch : List (String × Item))
    (hrel : ItemsRel items ch) :
    ∀ (ks : List String) (acc : List (String × Item)),
      (∀ k ∈ ks, alGet items k ≠ none) →
      ∃ out, decode_project_go items ks acc = .ok out ∧
        ∀ k, alGet out k = if k ∈ ks then alGet ch k else alGet acc k := by
  intro ks
  induction ks with
  | nil =>
    intro acc _
    exact ⟨acc, rfl, fun k => by simp⟩
  | cons k0 ks ih =>
    intro acc hks
    have hk0 : alGet items k0 ≠ none := hks k0 (by simp)
    rcases hrel k0 with ⟨hn, _⟩ | ⟨node, it0, hin, hch, hid, henc, hal⟩
    · exact absurd hn hk0
    · have hdec : decode_item items k0 = .ok (some it0) :=
        decode_item_enc items k0 node it0 hin henc hal hid
      rw [decode_project_go, hdec]
      obtain ⟨out, hout, hlook⟩ := ih (alPut acc k0 it0)
        (fun k hk => hks k (by simp [hk]))
      refine ⟨out, hout, fun k => ?_⟩
      rw [hlook k]
      by_cases hkks : k ∈ ks
      · simp [hkks]
      · by_cases hkk0 : k = k0
        · subst hkk0
          simp [hkks, alGet_alPut_self, hch]
        · simp [hkks, hkk0, alGet_alPut_ne _ _ hkk0]

/-- Reconstruction from any document satisfying the invariant yields an
index that agrees with the live one on every key. -/
theorem decode_project_inv (doc : AmMap) (p : Project) (hinv : Inv doc p) :
    ∃ p', decode_project doc = .ok p' ∧
      ∀ k, alGet p'.children k = alGet p.children k := by
  obtain ⟨items, hg, hrel⟩ := hinv
  have hfind : find_items_node doc = .ok items := find_items_node_of_get hg
  obtain ⟨out, hout, hlook⟩ := decode_project_go_ok items p.children hrel
    (items.map Prod.fst) []
    (fun k hk => by
      rw [Ne, alGet_eq_none_iff]
      simpa using hk)
  refine ⟨⟨out⟩, ?_, ?_⟩
  · rw [decode_project, hfind]
    show (match decode_project_go items (items.map Prod.fst) [] with
      | .ok o => Except.ok (⟨o⟩ : Project)
      | .error e => Except.error e) = Except.ok (⟨out⟩ : Project)
    rw [hout]
  · intro k
    show alGet out k = _
    rw [hlook k]
    by_cases hk : k ∈ items.map Prod.fst
    · simp [hk]
    · have hnone : alGet items k = none := (alGet_eq_none_iff items k).mpr hk
      rcases hrel k with ⟨_, hchn⟩ | ⟨node, it0, hin, _, _, _, _⟩
      · simp [hk, hchn, alGet]
      · rw [hnone] at hin
        exact absurd hin (by simp)

/-- The item node `with_item` writes encodes the inserted item, whichever
content representation the discriminator picked. -/
theorem nodeEnc_putParentClass (item : Item) (cv : AmValue)
    (hcv : cv = .text item.content ∨ cv = .scalar (.bytes item.content)) :
    NodeEnc (putParentClass (alPut (baseItemNode item) "content" cv) item) item := by
  obtain ⟨iid, iat, icls, ict, icont, irank, ipar⟩ := item
  rcases hcv with h | h <;> subst h <;> cases ipar <;> cases icls
  · exact ⟨rfl, rfl, rfl, Or.inl rfl, rfl, rfl⟩
  · exact ⟨rfl, rfl, rfl, Or.inl rfl, rfl, rfl⟩
  · exact ⟨rfl, rfl, rfl, Or.inl rfl, rfl, rfl⟩
  · exact ⟨rfl, rfl, rfl, Or.inl rfl, rfl, rfl⟩
  · exact ⟨rfl, rfl, rfl, Or.inr rfl, rfl, rfl⟩
  · exact ⟨rfl, rfl, rfl, Or.inr rfl, rfl, rfl⟩
  · exact ⟨rfl, rfl, rfl, Or.inr rfl, rfl, rfl⟩
  · exact ⟨rfl, rfl, rfl, Or.inr rfl, rfl, rfl⟩

/-- A successful `with_item_write` extends both sides in lockstep. -/
theorem with_item_write_inv (p : Project) (item : Item) (doc : AmMap)
    (items : AmMap) (p' : Project) (d' : AmMap)
    (hrel : ItemsRel items p.children) (hal : atAligned item.atNs)
    (hok : with_item_write p item doc items = (none, p', d')) :
    Inv d' p' := by
  have hcore : ∀ cv, cv = AmValue.text item.content ∨
      cv = AmValue.scalar (.bytes item.content) →
      p' = ⟨alPut p.children item.id item⟩ →
      d' = alPut doc "items" (.mapObj (alPut items item.id (.mapObj
        (putParentClass (alPut (baseItemNode item) "content" cv) item)))) →
      Inv d' p' := by
    intro cv hcv hp hd
    subst hp
    subst hd
    refine ⟨_, alGet_alPut_self _ _ _, fun k => ?_⟩
    by_cases hk : k = item.id
    · subst hk
      right
      exact ⟨_, item, alGet_alPut_self _ _ _, alGet_alPut_self _ _ _, rfl,
        nodeEnc_putParentClass item cv hcv, hal⟩
    · rw [show alGet (alPut items item.id (.mapObj
        (putParentClass (alPut (baseItemNode item) "content" cv) item))) k
          = alGet items k from alGet_alPut_ne _ _ hk]
      show _ ∨ _
      rw [show alGet (alPut p.children item.id item) k = alGet p.children k from
        alGet_alPut_ne _ _ hk]
      exact hrel k
  rw [with_item_write] at hok
  by_cases htext : strStartsWith item.content_type "text/"
  · rw [if_pos htext] at hok
    by_cases hutf : isValidUtf8 item.content
    · rw [if_pos hutf] at hok
      injection hok with he hrest
      injection hrest with hp hd
      exact hcore _ (Or.inl rfl) hp.symm hd.symm
    · rw [if_neg hutf] at hok
      injection hok with he _
      exact absurd he (by simp)
  · rw [if_neg htext] at hok
    injection hok with he hrest
    injection hrest with hp hd
    exact hcore _ (Or.inr rfl) hp.symm hd.symm

/-- Insert preserves the invariant, also from the initial empty state. -/
theorem with_item_inv (p : Project) (item : Item) (doc : AmMap) (p' : Project)
    (d' : AmMap)
    (hpre : Inv doc p ∨ (alGet doc "items" = none ∧ p.children = []))
    (hal : atAligned item.atNs)
    (hok : with_item p item doc = (none, p', d')) : Inv d' p' := by
  obtain ⟨items, hfind, hrel⟩ :
      ∃ items, (find_items_node doc = .ok items ∨
        (∃ e, find_items_node doc = .error e ∧ items = [])) ∧
        ItemsRel items p.children := by
    rcases hpre with ⟨items, hg, hrel⟩ | ⟨hg, hch⟩
    · exact ⟨items, Or.inl (find_items_node_of_get hg), hrel⟩
    · refine ⟨[], Or.inr ⟨.noSuchKey "items", by rw [find_items_node, hg], rfl⟩, ?_⟩
      intro k
      left
      exact ⟨rfl, by rw [hch]; rfl⟩
  rw [with_item] at hok
  by_cases h1 : item.id = ""
  · rw [if_pos h1] at hok
    injection hok with he _
    exact absurd he (by simp)
  · rw [if_neg h1] at hok
    by_cases h2 : (alGet p.children item.id).isSome
    · rw [if_pos h2] at hok
      injection hok with he _
      exact absurd he (by simp)
    · rw [if_neg h2] at hok
      have hred : (match find_items_node doc with
          | .ok items => with_item_write p item doc items
          | .error _ => with_item_write p item doc []) =
          with_item_write p item doc items := by
        rcases hfind with hfe | ⟨e, hfe, hitems⟩
        · rw [hfe]
        · rw [hfe, hitems]
      split at hok
      · rename_i par _
        by_cases h3 : (alGet p.children par).isNone
        · rw [if_pos h3] at hok
          injection hok with he _
          exact absurd he (by simp)
        · rw [if_neg h3] at hok
          rw [hred] at hok
          exact with_item_write_inv p item doc items p' d' hrel hal hok
      · rw [hred] at hok
        exact with_item_write_inv p item doc items p' d' hrel hal hok

/-- Delete preserves the invariant. -/
theorem without_item_inv (p : Project) (id : String) (doc : AmMap)
    (p' : Project) (d' : AmMap) (hinv : Inv doc p)
    (hok : without_item p id doc = (none, p', d')) : Inv d' p' := by
  obtain ⟨items, hg, hrel⟩ := hinv
  have hfind : find_items_node doc = .ok items := find_items_node_of_get hg
  rw [without_item] at hok
  by_cases h1 : (alGet p.children id).isNone
  · rw [if_pos h1] at hok
    injection hok with he _
    exact absurd he (by simp)
  · rw [if_neg h1] at hok
    by_cases h2 : has_children p (some id)
    · rw [if_pos h2] at hok
      injection hok with he _
      exact absurd he (by simp)
    · rw [if_neg h2] at hok
      simp only [hfind] at hok
      injection hok with he hrest
      injection hrest with hp hd
      subst hp
      subst hd
      refine ⟨alDel items id, alGet_alPut_self _ _ _, fun k => ?_⟩
      by_cases hk : k = id
      · subst hk
        left
        exact ⟨alGet_alDel_self _ _, alGet_alDel_self _ _⟩
      · rw [alGet_alDel_ne _ hk]
        show _ ∨ _
        rw [show alGet (Project.mk (alDel p.children id)).children k
            = alGet p.children k from alGet_alDel_ne _ hk]
        exact hrel k

/-- A successful `Content` edit keeps the node encoding the updated item
(and never touches `at` or `id`). -/
theorem applyContentEdit_enc (it1 : Item) (node1 : AmMap) (bs : Bytes)
    (it' : Item) (node' : AmMap) (henc : NodeEnc node1 it1)
    (hok : applyContentEdit it1 node1 bs = (none, it', node')) :
    NodeEnc node' it' ∧ it'.atNs = it1.atNs ∧ it'.id = it1.id := by
  obtain ⟨hat, hct, hrank, hcontent, hpar, hcls⟩ := henc
  rw [applyContentEdit] at hok
  by_cases hsame : it1.content = bs
  · rw [if_pos hsame] at hok
    injection hok with _ hrest
    injection hrest with hi hn
    subst hi
    subst hn
    exact ⟨⟨hat, hct, hrank, hcontent, hpar, hcls⟩, rfl, rfl⟩
  · rw [if_neg hsame] at hok
    by_cases htext : strStartsWith it1.content_type "text/"
    · rw [if_pos htext] at hok
      by_cases hutf : isValidUtf8 bs
      · rw [if_neg (by simp [hutf])] at hok
        split at hok
        · rename_i oldT heq
          split at hok
          · rename_i newT heq2
            injection hok with _ hrest
            injection hrest with hi hn
            subst hi
            subst hn
            refine ⟨⟨?_, ?_, ?_, ?_, ?_, ?_⟩, rfl, rfl⟩
            · rw [alGet_alPut_ne _ _ (by decide)]; exact hat
            · rw [alGet_alPut_ne _ _ (by decide)]; exact hct
            · rw [alGet_alPut_ne _ _ (by decide)]; exact hrank
            · left
              rw [alGet_alPut_self, contentTextUpdate_some oldT bs newT heq2]
            · rw [alGet_alPut_ne _ _ (by decide)]; exact hpar
            · rw [alGet_alPut_ne _ _ (by decide)]; exact hcls
          · injection hok with he _
            exact absurd he (by simp)
        · injection hok with _ hrest
          injection hrest with hi hn
          subst hi
          subst hn
          refine ⟨⟨?_, ?_, ?_, ?_, ?_, ?_⟩, rfl, rfl⟩
          · rw [alGet_alPut_ne _ _ (by decide)]; exact hat
          · rw [alGet_alPut_ne _ _ (by decide)]; exact hct
          · rw [alGet_alPut_ne _ _ (by decide)]; exact hrank
          · left
            rw [alGet_alPut_self]
          · rw [alGet_alPut_ne _ _ (by decide)]; exact hpar
          · rw [alGet_alPut_ne _ _ (by decide)]; exact hcls
      · rw [if_pos (by simp [hutf])] at hok
        injection hok with he _
        exact absurd he (by simp)
    · rw [if_neg htext] at hok
      injection hok with _ hrest
      injection hrest with hi hn
      subst hi
      subst hn
      refine ⟨⟨?_, ?_, ?_, ?_, ?_, ?_⟩, rfl, rfl⟩
      · rw [alGet_alPut_ne _ _ (by decide)]; exact hat
      · rw [alGet_alPut_ne _ _ (by decide)]; exact hct
      · rw [alGet_alPut_ne _ _ (by decide)]; exact hrank
      · right
        rw [alGet_alPut_self]
      · rw [alGet_alPut_ne _ _ (by decide)]; exact hpar
      · rw [alGet_alPut_ne _ _ (by decide)]; exact hcls

/-- One successful edit keeps the node encoding the updated item. -/
theorem applyEdit_enc (p : Project) (id : String) (it : Item) (node : AmMap)
    (u : ItemUpdate) (it' : Item) (node' : AmMap) (henc : NodeEnc node it)
    (hok : applyEdit p id it node u = (none, it', node')) :
    NodeEnc node' it' ∧ it'.atNs = it.atNs ∧ it'.id = it.id := by
  obtain ⟨hat, hct, hrank, hcontent, hpar, hcls⟩ := henc
  cases u with
  | Parent po =>
    cases po with
    | none =>
      rw [applyEdit] at hok
      split at hok
      · injection hok with _ hrest
        injection hrest with hi hn
        subst hi
        subst hn
        refine ⟨⟨?_, ?_, ?_, ?_, ?_, ?_⟩, rfl, rfl⟩
        · rw [alGet_alDel_ne _ (by decide)]; exact hat
        · rw [alGet_alDel_ne _ (by decide)]; exact hct
        · rw [alGet_alDel_ne _ (by decide)]; exact hrank
        · rcases hcontent with hc | hc
          · left; rw [alGet_alDel_ne _ (by decide)]; exact hc
          · right; rw [alGet_alDel_ne _ (by decide)]; exact hc
        · rw [alGet_alDel_self]; rfl
        · rw [alGet_alDel_ne _ (by decide)]; exact hcls
      · injection hok with _ hrest
        injection hrest with hi hn
        subst hi
        subst hn
        exact ⟨⟨hat, hct, hrank, hcontent, hpar, hcls⟩, rfl, rfl⟩
    | some np =>
      rw [applyEdit] at hok
      split at hok
      · injection hok with _ hrest
        injection hrest with hi hn
        subst hi
        subst hn
        refine ⟨⟨?_, ?_, ?_, ?_, ?_, ?_⟩, rfl, rfl⟩
        · rw [alGet_alPut_ne _ _ (by decide)]; exact hat
        · rw [alGet_alPut_ne _ _ (by decide)]; exact hct
        · rw [alGet_alPut_ne _ _ (by decide)]; exact hrank
        · rcases hcontent with hc | hc
          · left; rw [alGet_alPut_ne _ _ (by decide)]; exact hc
          · right; rw [alGet_alPut_ne _ _ (by decide)]; exact hc
        · rw [alGet_alPut_self]; rfl
        · rw [alGet_alPut_ne _ _ (by decide)]; exact hcls
      · injection hok with he _
        exact absurd he (by simp)
      · injection hok with he _
        exact absurd he (by simp)
      · injection hok with he _
        exact absurd he (by simp)
  | Rank r =>
    rw [applyEdit] at hok
    injection hok with _ hrest
    injection hrest with hi hn
    subst hi
    subst hn
    refine ⟨⟨?_, ?_, ?_, ?_, ?_, ?_⟩, rfl, rfl⟩
    · rw [alGet_alPut_ne _ _ (by decide)]; exact hat
    · rw [alGet_alPut_ne _ _ (by decide)]; exact hct
    · rw [alGet_alPut_self]
    · rcases hcontent with hc | hc
      · left; rw [alGet_alPut_ne _ _ (by decide)]; exact hc
      · right; rw [alGet_alPut_ne _ _ (by decide)]; exact hc
    · rw [alGet_alPut_ne _ _ (by decide)]; exact hpar
    · rw [alGet_alPut_ne _ _ (by decide)]; exact hcls
  | Class co =>
    cases co with
    | none =>
      rw [applyEdit] at hok
      injection hok with _ hrest
      injection hrest with hi hn
      subst hi
      subst hn
      refine ⟨⟨?_, ?_, ?_, ?_, ?_, ?_⟩, rfl, rfl⟩
      · rw [alGet_alDel_ne _ (by decide)]; exact hat
      · rw [alGet_alDel_ne _ (by decide)]; exact hct
      · rw [alGet_alDel_ne _ (by decide)]; exact hrank
      · rcases hcontent with hc | hc
        · left; rw [alGet_alDel_ne _ (by decide)]; exact hc
        · right; rw [alGet_alDel_ne _ (by decide)]; exact hc
      · rw [alGet_alDel_ne _ (by decide)]; exact hpar
      · rw [alGet_alDel_self]; rfl
    | some c =>
      rw [applyEdit] at hok
      injection hok with _ hrest
      injection hrest with hi hn
      subst hi
      subst hn
      refine ⟨⟨?_, ?_, ?_, ?_, ?_, ?_⟩, rfl, rfl⟩
      · rw [alGet_alPut_ne _ _ (by decide)]; exact hat
      · rw [alGet_alPut_ne _ _ (by decide)]; exact hct
      · rw [alGet_alPut_ne _ _ (by decide)]; exact hrank
      · rcases hcontent with hc | hc
        · left; rw [alGet_alPut_ne _ _ (by decide)]; exact hc
        · right; rw [alGet_alPut_ne _ _ (by decide)]; exact hc
      · rw [alGet_alPut_ne _ _ (by decide)]; exact hpar
      · rw [alGet_alPut_self]; rfl
  | Content ct bs =>
    rw [applyEdit] at hok
    by_cases hctne : it.content_type ≠ ct
    · rw [if_pos hctne] at hok
      have henc1 : NodeEnc (alPut node "content_type" (.scalar (.str ct)))
          { it with content_type := ct } := by
        refine ⟨?_, ?_, ?_, ?_, ?_, ?_⟩
        · rw [alGet_alPut_ne _ _ (by decide)]; exact hat
        · rw [alGet_alPut_self]
        · rw [alGet_alPut_ne _ _ (by decide)]; exact hrank
        · rcases hcontent with hc | hc
          · left; rw [alGet_alPut_ne _ _ (by decide)]; exact hc
          · right; rw [alGet_alPut_ne _ _ (by decide)]; exact hc
        · rw [alGet_alPut_ne _ _ (by decide)]; exact hpar
        · rw [alGet_alPut_ne _ _ (by decide)]; exact hcls
      obtain ⟨henc2, hat2, hid2⟩ := applyContentEdit_enc { it with content_type := ct }
        (alPut node "content_type" (.scalar (.str ct))) bs it' node' henc1 hok
      exact ⟨henc2, hat2, hid2⟩
    · rw [if_neg hctne] at hok
      exact applyContentEdit_enc _ _ bs it' node'
        ⟨hat, hct, hrank, hcontent, hpar, hcls⟩ hok

/-- The whole edit loop keeps the node encoding the evolving item. -/
theorem applyEdits_enc (p : Project) (id : String) :
    ∀ (us : List ItemUpdate) (it : Item) (node : AmMap) (it' : Item)
      (node' : AmMap), NodeEnc node it →
      applyEdits p id it node us = (none, it', node') →
      NodeEnc node' it' ∧ it'.atNs = it.atNs ∧ it'.id = it.id := by
  intro us
  induction us with
  | nil =>
    intro it node it' node' henc hok
    rw [applyEdits] at hok
    injection hok with _ hrest
    injection hrest with hi hn
    subst hi
    subst hn
    exact ⟨henc, rfl, rfl⟩
  | cons u us ih =>
    intro it node it' node' henc hok
    rw [applyEdits] at hok
    split at hok
    · rename_i itm nodem heq
      obtain ⟨henc1, hat1, hid1⟩ := applyEdit_enc p id it node u itm nodem henc heq
      obtain ⟨henc2, hat2, hid2⟩ := ih itm nodem it' node' henc1 hok
      exact ⟨henc2, hat2.trans hat1, hid2.trans hid1⟩
    · injection hok with he _
      exact absurd he (by simp)

/-- Update preserves the invariant. -/
theorem with_updated_item_inv (p : Project) (id : String)
    (updates : List ItemUpdate) (doc : AmMap) (p' : Project) (d' : AmMap)
    (hinv : Inv doc p)
    (hok : with_updated_item p id updates doc = (none, p', d')) : Inv d' p' := by
  obtain ⟨items, hg, hrel⟩ := hinv
  have hfind : find_items_node doc = .ok items := find_items_node_of_get hg
  rw [with_updated_item] at hok
  split at hok
  · injection hok with he _
    exact absurd he (by simp)
  · rename_i target hc
    rw [hfind] at hok
    have hok1 : with_updated_item_core p id updates target items doc =
        (none, p', d') := hok
    rcases hrel id with ⟨_, hchn⟩ | ⟨node, it0, hin, hch0, hid0, henc0, hal0⟩
    · rw [hc] at hchn
      exact absurd hchn (by simp)
    · have htgt : it0 = target := by
        rw [hc] at hch0
        exact (Option.some.inj hch0).symm
      subst htgt
      simp only [with_updated_item_core, hin] at hok1
      have hok2 : (match applyEdits p id it0 node updates with
          | (none, it', node') =>
            (none, (⟨alPut p.children id it'⟩ : Project),
              alPut doc "items" (.mapObj (alPut items id (.mapObj node'))))
          | (some e, _, node') =>
            (some e, p, alPut doc "items" (.mapObj (alPut items id (.mapObj node'))))) =
          (none, p', d') := hok1
      split at hok2
      · rename_i it' node' heq
        obtain ⟨henc', hat', hid'⟩ := applyEdits_enc p id updates it0 node it' node' henc0 heq
        injection hok2 with _ hrest
        injection hrest with hp hd
        subst hp
        subst hd
        refine ⟨alPut items id (.mapObj node'), alGet_alPut_self _ _ _, fun k => ?_⟩
        by_cases hk : k = id
        · subst hk
          right
          exact ⟨node', it', alGet_alPut_self _ _ _, alGet_alPut_self _ _ _,
            hid'.trans hid0, henc', by rw [hat']; exact hal0⟩
        · rw [alGet_alPut_ne _ _ hk]
          show _ ∨ _
          rw [show alGet (Project.mk (alPut p.children id it')).children k
              = alGet p.children k from alGet_alPut_ne _ _ hk]
          exact hrel k
      · injection hok2 with he _
        exact absurd he (by simp)

/-- The invariant is preserved along any successful run. -/
theorem runOps_inv : ∀ (ops : List Op) (p : Project) (d : AmMap) (p' : Project)
    (d' : AmMap), Inv d p → (∀ op ∈ ops, opAligned op) →
    runOps ops p d = (none, p', d') → Inv d' p' := by
  intro ops
  induction ops with
  | nil =>
    intro p d p' d' hinv _ hrun
    rw [runOps] at hrun
    injection hrun with _ hrest
    injection hrest with hp hd
    subst hp
    subst hd
    exact hinv
  | cons op ops ih =>
    intro p d p' d' hinv hal hrun
    rw [runOps] at hrun
    split at hrun
    · rename_i p1 d1 heq
      have hinv1 : Inv d1 p1 := by
        cases op with
        | insert item =>
          exact with_item_inv p item d p1 d1 (Or.inl hinv)
            (hal (.insert item) (by simp)) heq
        | update uid us => exact with_updated_item_inv p uid us d p1 d1 hinv heq
        | delete did => exact without_item_inv p did d p1 d1 hinv heq
      exact ih p1 d1 p' d' hinv1 (fun o ho => hal o (by simp [ho])) hrun
    · injection hrun with he _
      exact absurd he (by simp)

/-- **C1** (amended).  Round trip: for every Project built purely through a
non-empty sequence of successful `with_item` / `with_updated_item` /
`without_item` calls from the initial state, in which every inserted item's
`at` timestamp is a non-negative whole number of milliseconds within the
representable range, `decode_project` applied to the resulting document
yields a Project whose index agrees with the live index on every id — the
same set of ids and, per id, the same `at`, `class`, `content_type`,
`content`, `rank` and `parent` values.  (The document stores `at` truncated
to milliseconds, so sub-millisecond or pre-1970 timestamps do not round
trip; and a run with no inserts leaves no items collection to decode.) -/
theorem round_trip (ops : List Op) (p : Project) (d : AmMap)
    (hne : ops ≠ [])
    (hal : ∀ op ∈ ops, opAligned op)
    (hrun : runOps ops ⟨[]⟩ [] = (none, p, d)) :
    ∃ p', decode_project d = .ok p' ∧
      ∀ k, alGet p'.children k = alGet p.children k := by
  cases ops with
  | nil => exact absurd rfl hne
  | cons op ops =>
    rw [runOps] at hrun
    split at hrun
    · rename_i p1 d1 heq
      have hinv1 : Inv d1 p1 := by
        cases op with
        | insert item =>
          exact with_item_inv ⟨[]⟩ item [] p1 d1 (Or.inr ⟨rfl, rfl⟩)
            (hal (.insert item) (by simp)) heq
        | update uid us =>
          have h2 : (some (AuError.noSuchKey uid), (⟨[]⟩ : Project), ([] : AmMap)) =
              (none, p1, d1) := heq
          injection h2 with he _
          exact absurd he (by simp)
        | delete did =>
          have h2 : (some (AuError.noSuchKey did), (⟨[]⟩ : Project), ([] : AmMap)) =
              (none, p1, d1) := heq
          injection h2 with he _
          exact absurd he (by simp)
      have hinvd : Inv d p :=
        runOps_inv ops p1 d1 p d hinv1 (fun o ho => hal o (by simp [ho])) hrun
      exact decode_project_inv d p hinvd
    · injection hrun with he _
      exact absurd he (by simp)

/-- **C1** (counterexample).  As stated, the round trip fails: insert an
item whose `at` is 1 nanosecond past the epoch.  The insert succeeds, but
the document stores `at` truncated to whole milliseconds, so the decoded
index holds `at = 0` while the live index holds `at = 1`. -/
theorem round_trip_counterexample :
    (runOps [Op.insert { itemA with atNs := 1 }] ⟨[]⟩ []).1 = none ∧
    decode_project (runOps [Op.insert { itemA with atNs := 1 }] ⟨[]⟩ []).2.2 =
      .ok ⟨[("item-a", itemA)]⟩ ∧
    get_item (runOps [Op.insert { itemA with atNs := 1 }] ⟨[]⟩ []).2.1 "item-a" =
      some { itemA with atNs := 1 } ∧
    ({ itemA with atNs := 1 } : Item).atNs ≠ itemA.atNs :=
  ⟨rfl, rfl, rfl, by decide⟩

/-- Witness for C1 (amended) on the single-insert run of `itemA`. -/
theorem round_trip_witness :
    ∃ p', decode_project docA = .ok p' ∧
      ∀ k, alGet p'.children k = alGet projA.children k := by
  refine round_trip [Op.insert itemA] projA docA (by simp) ?_ rfl
  intro op hop
  simp only [List.mem_singleton] at hop
  subst hop
  show atAligned itemA.atNs
  refine ⟨le_refl 0, rfl, ?_⟩
  rw [maxTimestampNanos]
  decide

/-- **C2** (code bug).  Re-parenting an item to *itself* is accepted: the
walk starts at `X = id`, immediately finds the item's own (root) parent
chain, never compares the starting node against `id`, and `with_updated_item`
then writes `parent = id` into both index and document — creating a
self-cycle, after which following parent links from the item never
terminates (the walk here exhausts any fuel; the source's unbounded loop
would spin forever).  The claim — and spec invariant 3 — require an
invalid-operation cycle failure instead. -/
theorem reparent_self_cycle_bug :
    (with_updated_item projA "item-a" [.Parent (some "item-a")] docA).1 = none ∧
    get_item (with_updated_item projA "item-a"
      [.Parent (some "item-a")] docA).2.1 "item-a" =
      some { itemA with parent := some "item-a" } ∧
    docItemField (with_updated_item projA "item-a"
      [.Parent (some "item-a")] docA).2.2 "item-a" "parent" =
      some (.scalar (.str "item-a")) ∧
    parentWalk (with_updated_item projA "item-a"
        [.Parent (some "item-a")] docA).2.1 "other" "item-a"
      ((with_updated_item projA "item-a"
        [.Parent (some "item-a")] docA).2.1.children.length + 1) = .fuelOut :=
  ⟨rfl, rfl, rfl, rfl⟩

end Au

